import Mathlib

/-!
Verification development for the script-sync track-change extraction engine
(`src/services/docxParser.ts` and its DOM-based alternate version).

The TypeScript source is shallowly embedded: each private static method of
`DocxParser` becomes a Lean function of the same name; JavaScript strings are
`String` (lists of characters), JS `Date` values are the `JsDate` type below,
xml2js parse trees are `JsVal`, DOMParser trees are `Dom`, and the asynchronous
input/output behaviour of one uploaded file (mammoth conversion results, ZIP /
XML stage outcome) is a `FileModel` record.  try/catch control flow is
translated into explicit case analysis on those outcomes.
-/

namespace ScriptSync

/-! ### JavaScript string primitives

`isWs` models the core of the JS `\s` character class (space, tab, newline,
carriage return, vertical tab, form feed); the Unicode space variants that
`\s` also accepts never occur in the strings this development manipulates.
-/

def isWs (c : Char) : Bool :=
  c = ' ' || c = '\t' || c = '\n' || c = '\r' || c = Char.ofNat 11 || c = Char.ofNat 12

theorem dropWhile_length_le (p : α → Bool) (l : List α) :
    (l.dropWhile p).length ≤ l.length :=
  (List.dropWhile_suffix p).sublist.length_le

/-- JS `String.prototype.trim`: drop leading and trailing whitespace. -/
def jsTrim (cs : List Char) : List Char :=
  ((cs.dropWhile isWs).reverse.dropWhile isWs).reverse

def jsTrimS (s : String) : String :=
  String.mk (jsTrim s.data)

mutual

/-- Models `.replace(/<[^>]*>/g, ' ')`: every maximal `<...>` span (up to the
first `>`) is replaced by one space; a `<` with no later `>` stays literal
(the regex requires a closing `>`). -/
def stripTags : List Char → List Char
  | [] => []
  | c :: rest =>
    if c = '<' && rest.contains '>' then ' ' :: stripTagsSkip rest
    else c :: stripTags rest

/-- Inside a `<...>` span: discard characters up to and past the first `>`. -/
def stripTagsSkip : List Char → List Char
  | [] => []
  | c :: rest => if c = '>' then stripTags rest else stripTagsSkip rest

end

mutual

/-- Models `.replace(/\s+/g, ' ')`: each maximal whitespace run becomes one
space. -/
def collapseWs : List Char → List Char
  | [] => []
  | c :: rest => if isWs c then ' ' :: collapseWsSkip rest else c :: collapseWs rest

/-- Inside a whitespace run already replaced by one space: drop the rest of
the run. -/
def collapseWsSkip : List Char → List Char
  | [] => []
  | c :: rest => if isWs c then collapseWsSkip rest else c :: collapseWs rest

end

/-- `htmlContent.replace(/<[^>]*>/g, ' ').replace(/\s+/g, ' ').trim()` —
the HTML-to-plain-text post-processing applied to every mammoth result. -/
def htmlToText (html : String) : String :=
  String.mk (jsTrim (collapseWs (stripTags html.data)))

mutual

/-- JS `str.split(/\s+/)` while inside a piece (`acc` holds the reversed
piece built so far): a whitespace character ends the piece and a new piece
begins after the whitespace run.  `"".split(/\s+/)` is `[""]` and leading or
trailing runs contribute empty pieces — faithful to the JS quirks. -/
def splitWsGo : List Char → List Char → List (List Char)
  | [], acc => [acc.reverse]
  | c :: rest, acc =>
    if isWs c then acc.reverse :: splitWsSkip rest else splitWsGo rest (c :: acc)

/-- `str.split(/\s+/)` while inside a separator run. -/
def splitWsSkip : List Char → List (List Char)
  | [] => [[]]
  | c :: rest => if isWs c then splitWsSkip rest else splitWsGo rest [c]

end

/-- JS `s.split(/\s+/)`. -/
def jsSplitWs (s : String) : List String :=
  (splitWsGo s.data []).map String.mk

mutual

/-- Modelled from the spec: the maximal non-whitespace runs of a string, in
order — "the number of whitespace-separated tokens" is the length of this
list.  Used only to compare the code's word count against the spec's words. -/
def tokensGo : List Char → List (List Char)
  | [] => []
  | c :: rest => if isWs c then tokensGo rest else tokensIn rest [c]

/-- Token scan while inside a token (`acc` holds the reversed token so far). -/
def tokensIn : List Char → List Char → List (List Char)
  | [], acc => [acc.reverse]
  | c :: rest, acc =>
    if isWs c then acc.reverse :: tokensGo rest else tokensIn rest (c :: acc)

end

def wsTokens (s : String) : List String :=
  (tokensGo s.data).map String.mk

/-! ### JavaScript dates

`JsDate` models a JS `Date` object: either a valid point in time (epoch
milliseconds) or the Invalid Date produced by `new Date(unparseableString)`.
`jsParseDate` models the `Date` constructor's string parsing over the
ECMA-262 Date Time String Format — `YYYY[-MM[-DD]]` optionally followed by
`THH:MM[:SS[.sss]]` and, when a time is present, an optional `Z` or `±HH:MM`
offset — with the spec's field-range validation (month 1–12, day within the
month and leap years honoured, hours 0–23 or the `24:00:00.000` endpoint,
minutes/seconds 0–59): an ISO-shaped string with an out-of-range field is
Invalid Date, exactly as in JS.  A date-time with no offset is evaluated as
UTC (engines use the host timezone there; the claims never depend on the
absolute value of such a date).  The additional legacy, implementation-defined
formats some engines accept (e.g. `"Jan 2, 2024"`) are outside the model —
Word writes `w:date` attributes in the ISO format. -/

inductive JsDate where
  | valid (ms : Int)
  | invalid
deriving DecidableEq, Repr

def digitVal (c : Char) : Option Nat :=
  if c.isDigit then some (c.toNat - 48) else none

def digits2 : List Char → Option (Nat × List Char)
  | a :: b :: rest =>
    match digitVal a, digitVal b with
    | some x, some y => some (x * 10 + y, rest)
    | _, _ => none
  | _ => none

def digits3 : List Char → Option (Nat × List Char)
  | a :: b :: c :: rest =>
    match digitVal a, digitVal b, digitVal c with
    | some x, some y, some z => some ((x * 10 + y) * 10 + z, rest)
    | _, _, _ => none
  | _ => none

def digits4 : List Char → Option (Nat × List Char)
  | a :: b :: c :: d :: rest =>
    match digitVal a, digitVal b, digitVal c, digitVal d with
    | some x, some y, some z, some w => some (((x * 10 + y) * 10 + z) * 10 + w, rest)
    | _, _, _, _ => none
  | _ => none

def isLeapYear (y : Nat) : Bool :=
  (y % 4 = 0 && y % 100 ≠ 0) || y % 400 = 0

def daysInMonth (y mo : Nat) : Nat :=
  if mo = 2 then (if isLeapYear y then 29 else 28)
  else if mo = 4 || mo = 6 || mo = 9 || mo = 11 then 30
  else 31

/-- Days since the Unix epoch of a civil date (proleptic Gregorian). -/
def daysFromCivil (y : Int) (mo d : Nat) : Int :=
  let y2 : Int := if mo ≤ 2 then y - 1 else y
  let era : Int := (if 0 ≤ y2 then y2 else y2 - 399) / 400
  let yoe : Int := y2 - era * 400
  let mp : Int := (Int.ofNat mo + 9) % 12
  let doy : Int := (153 * mp + 2) / 5 + Int.ofNat d - 1
  let doe : Int := yoe * 365 + yoe / 4 - yoe / 100 + doy
  era * 146097 + doe - 719468

/-- `YYYY`, `YYYY-MM` or `YYYY-MM-DD` (month/day default to 1). -/
def parseDatePart (l : List Char) : Option (Nat × Nat × Nat × List Char) :=
  match digits4 l with
  | none => none
  | some (y, rest) =>
    match rest with
    | '-' :: r1 =>
      match digits2 r1 with
      | none => none
      | some (mo, r2) =>
        match r2 with
        | '-' :: r3 =>
          match digits2 r3 with
          | none => none
          | some (d, r4) => some (y, mo, d, r4)
        | _ => some (y, mo, 1, r2)
    | _ => some (y, 1, 1, rest)

/-- Optional `.sss` millisecond fraction after the seconds. -/
def parseFrac (l : List Char) : Option (Nat × List Char) :=
  match l with
  | '.' :: r =>
    match digits3 r with
    | none => none
    | some (f, r2) => some (f, r2)
  | _ => some (0, l)

/-- Optional `THH:MM[:SS[.sss]]`; the Bool records whether a time was given. -/
def parseTimePart (l : List Char) : Option (Bool × Nat × Nat × Nat × Nat × List Char) :=
  match l with
  | 'T' :: r =>
    match digits2 r with
    | none => none
    | some (h, r1) =>
      match r1 with
      | ':' :: r2 =>
        match digits2 r2 with
        | none => none
        | some (mi, r3) =>
          match r3 with
          | ':' :: r4 =>
            match digits2 r4 with
            | none => none
            | some (sec, r5) =>
              match parseFrac r5 with
              | none => none
              | some (f, r6) => some (true, h, mi, sec, f, r6)
          | _ => some (true, h, mi, 0, 0, r3)
      | _ => none
  | _ => some (false, 0, 0, 0, 0, l)

/-- Trailing `Z` or `±HH:MM` offset (minutes east), only after a time; the
whole string must end here. -/
def parseTzPart (hasTime : Bool) (l : List Char) : Option Int :=
  match l with
  | [] => some 0
  | ['Z'] => if hasTime then some 0 else none
  | c :: r =>
    if hasTime && (c = '+' || c = '-') then
      match digits2 r with
      | none => none
      | some (oh, r1) =>
        match r1 with
        | ':' :: r2 =>
          match digits2 r2 with
          | none => none
          | some (om, r3) =>
            match r3 with
            | [] =>
              if oh ≤ 23 && om ≤ 59 then
                some (if c = '-' then -(Int.ofNat (oh * 60 + om))
                      else Int.ofNat (oh * 60 + om))
              else none
            | _ => none
        | _ => none
    else none

def jsParseDate (s : String) : Option Int :=
  match parseDatePart s.data with
  | none => none
  | some (y, mo, d, rest) =>
    match parseTimePart rest with
    | none => none
    | some (hasTime, h, mi, sec, f, rest2) =>
      match parseTzPart hasTime rest2 with
      | none => none
      | some off =>
        if 1 ≤ mo && mo ≤ 12 && 1 ≤ d && d ≤ daysInMonth y mo
            && ((h ≤ 23 && mi ≤ 59 && sec ≤ 59)
                || (h = 24 && mi = 0 && sec = 0 && f = 0)) then
          some (daysFromCivil (Int.ofNat y) mo d * 86400000
                + Int.ofNat h * 3600000 + Int.ofNat mi * 60000
                + Int.ofNat sec * 1000 + Int.ofNat f - off * 60000)
        else none

/-- `new Date(s)` on a string argument. -/
def jsNewDate (s : String) : JsDate :=
  match jsParseDate s with
  | some ms => .valid ms
  | none => .invalid

/-! ### The RedlineChange data model (`src/types/redline.ts`) -/

inductive ChangeType where
  | added
  | deleted
  | modified
  | comment
deriving DecidableEq, Repr

/-- `location: { start: number; end: number }` — `end` is a Lean keyword, so
the second field is named `stop`. -/
structure Location where
  start : Nat
  stop : Nat
deriving DecidableEq, Repr

structure RedlineChange where
  id : String
  type : ChangeType
  text : String
  originalText : Option String := none
  author : String
  timestamp : JsDate
  location : Location
  comment : Option String := none
  suggestions : Option (List String) := none
  resolved : Option Bool := none
deriving DecidableEq, Repr

structure DocumentMetadata where
  filename : String
  uploadedAt : JsDate
  lastModified : JsDate
  wordCount : Nat
  changeCount : Nat
  authors : List String
deriving DecidableEq, Repr

/-! ### xml2js parse trees

A value produced by `xml2js.parseString`: a JS string, an array, or a plain
object whose fields map tag names (and the attribute bag `"$"`, and the text
key `"_"`) to further values.  The extractor methods of `DocxParser` receive
such a value and inspect it dynamically; the embedding mirrors exactly the
property accesses, truthiness tests and `Array.isArray` coercions they do. -/

inductive JsVal where
  | str (s : String)
  | arr (elems : List JsVal)
  | obj (fields : List (String × JsVal))

/-- JS truthiness of an xml2js value: objects and arrays are truthy, a string
is truthy iff non-empty. -/
def jsTruthy : JsVal → Bool
  | .str s => s ≠ ""
  | .arr _ => true
  | .obj _ => true

/-- `obj[key]` — property access, `undefined` (`none`) on non-objects. -/
def jsGetField (v : JsVal) (key : String) : Option JsVal :=
  match v with
  | .obj fields => fields.lookup key
  | _ => none

/-- `Array.isArray(v) ? v : [v]`. -/
def jsArrayize (v : JsVal) : List JsVal :=
  match v with
  | .arr elems => elems
  | v => [v]

/-- `element.$?.[name]` — the attribute bag lives under the `"$"` key and
maps attribute names to strings. -/
def jsGetAttr (e : JsVal) (name : String) : Option String :=
  match jsGetField e "$" with
  | some (.obj attrs) =>
    match attrs.lookup name with
    | some (.str v) => some v
    | _ => none
  | _ => none

/-- A chain `a || b || ... || dflt` of JS string expressions: the first truthy
(non-empty, present) one wins, else the default. -/
def firstTruthy (opts : List (Option String)) (dflt : String) : String :=
  match opts with
  | [] => dflt
  | o :: rest =>
    match o with
    | some v => if v = "" then firstTruthy rest dflt else v
    | none => firstTruthy rest dflt

/-- First truthy string of a chain, or `none` when all are absent/empty. -/
def firstTruthyOpt (opts : List (Option String)) : Option String :=
  match opts with
  | [] => none
  | o :: rest =>
    match o with
    | some v => if v = "" then firstTruthyOpt rest else some v
    | none => firstTruthyOpt rest

mutual

/-- `findElementsRecursive(obj, tagName, callback)`: collect, in callback
order, every value sitting under a `tagName` key anywhere in the tree
(arrayized), recursing through all object fields and array items — including
into the matched values themselves. -/
def findElementsRecursive (tag : String) : JsVal → List JsVal
  | .str _ => []
  | .arr elems => findElementsRecursiveList tag elems
  | .obj fields =>
    (match fields.lookup tag with
     | some v => if jsTruthy v then jsArrayize v else []
     | none => []) ++ findElementsRecursiveFields tag fields

/-- Recursion of `findElementsRecursive` over `Object.values` of an array. -/
def findElementsRecursiveList (tag : String) : List JsVal → List JsVal
  | [] => []
  | v :: vs => findElementsRecursive tag v ++ findElementsRecursiveList tag vs

/-- Recursion of `findElementsRecursive` over `Object.values` of an object. -/
def findElementsRecursiveFields (tag : String) : List (String × JsVal) → List JsVal
  | [] => []
  | (_, v) :: fs => findElementsRecursive tag v ++ findElementsRecursiveFields tag fs

end

/-- The `w:t` branch of `extractTextRecursive`: for each arrayized text node,
append it if it is a string, else append its `_` text field when truthy. -/
def wtNodeText (n : JsVal) : String :=
  match n with
  | .str s => s
  | .obj fields =>
    match fields.lookup "_" with
    | some (.str s) => if s = "" then "" else s
    | _ => ""
  | _ => ""

mutual

/-- `extractTextRecursive` of `extractTextFromElement`: strings are appended;
an object with a truthy `w:t` field contributes only its `w:t` text nodes;
any other object (and any array) is descended value by value. -/
def extractTextRecursive : JsVal → String
  | .str s => s
  | .arr elems => extractTextRecursiveList elems
  | .obj fields =>
    match fields.lookup "w:t" with
    | some v =>
      if jsTruthy v then (jsArrayize v).foldl (fun acc n => acc ++ wtNodeText n) ""
      else extractTextRecursiveFields fields
    | none => extractTextRecursiveFields fields

def extractTextRecursiveList : List JsVal → String
  | [] => ""
  | v :: vs => extractTextRecursive v ++ extractTextRecursiveList vs

def extractTextRecursiveFields : List (String × JsVal) → String
  | [] => ""
  | (_, v) :: fs => extractTextRecursive v ++ extractTextRecursiveFields fs

end

/-- `extractTextFromElement(element)`: recursive text recovery then `.trim()`. -/
def extractTextFromElement (e : JsVal) : String :=
  jsTrimS (extractTextRecursive e)

/-- The callback run on every matched `w:ins` element: `none` models "no push"
(empty recovered text).  The generated id uses `Date.now()` and
`Math.random()` in the source; the model uses a fixed placeholder since no
claim concerns id values. -/
def insCallback (now : Int) (e : JsVal) : Option RedlineChange :=
  let text := extractTextFromElement e
  let author := firstTruthy [jsGetAttr e "w:author"] "Unknown"
  let date := match firstTruthyOpt [jsGetAttr e "w:date"] with
    | some s => jsNewDate s
    | none => JsDate.valid now
  if text ≠ "" then
    some { id := "ins", type := .added, text := text, author := author,
           timestamp := date, location := { start := 0, stop := text.length } }
  else none

/-- The callback run on every matched `w:del` element. -/
def delCallback (now : Int) (e : JsVal) : Option RedlineChange :=
  let text := extractTextFromElement e
  let author := firstTruthy [jsGetAttr e "w:author"] "Unknown"
  let date := match firstTruthyOpt [jsGetAttr e "w:date"] with
    | some s => jsNewDate s
    | none => JsDate.valid now
  if text ≠ "" then
    some { id := "del", type := .deleted, text := "", originalText := some text,
           author := author, timestamp := date,
           location := { start := 0, stop := text.length } }
  else none

/-- `extractChangesFromXML(xmlObj, changes)`: locate `w:document`, then push
one change per recursively found `w:ins` element, then per `w:del` element.
`now` is the extraction-time clock read by each `new Date()`. -/
def extractChangesFromXML (now : Int) (xmlObj : JsVal) : List RedlineChange :=
  match jsGetField xmlObj "w:document" with
  | some document =>
    if jsTruthy document then
      (findElementsRecursive "w:ins" document).filterMap (insCallback now)
        ++ (findElementsRecursive "w:del" document).filterMap (delCallback now)
    else []
  | none => []

/-- The body run on each entry of `commentArray` in `extractCommentsFromXML`. -/
def commentCallback (now : Int) (c : JsVal) : Option RedlineChange :=
  let text := extractTextFromElement c
  let author := firstTruthy [jsGetAttr c "w:author"] "Unknown"
  let date := match firstTruthyOpt [jsGetAttr c "w:date"] with
    | some s => jsNewDate s
    | none => JsDate.valid now
  if text ≠ "" then
    some { id := "comment", type := .comment, text := text, author := author,
           timestamp := date, location := { start := 0, stop := 0 },
           comment := some text }
  else none

/-- `extractCommentsFromXML(xmlObj, changes)`. -/
def extractCommentsFromXML (now : Int) (xmlObj : JsVal) : List RedlineChange :=
  match (jsGetField xmlObj "w:comments").bind (fun v => jsGetField v "w:comment") with
  | some comments =>
    if jsTruthy comments then (jsArrayize comments).filterMap (commentCallback now)
    else []
  | none => []

/-! ### The fallback pattern extractor (`parseAlternativeTrackChanges`)

The three `while ((match = pattern.exec(content)) !== null)` loops are
embedded as explicit scanners over the character list.  `.` in the JS
patterns matches any character except a line terminator, `(.+?)` is a lazy
non-empty capture, and `exec` with the `g` flag resumes searching at the end
of the previous match. -/

/-- Whether `c` is matched by `.` in a JS regex without the `s` flag. -/
def isDotChar (c : Char) : Bool :=
  c ≠ '\n' && c ≠ '\r'

/-- Searching for the `]` that closes a lazy `(.+?)\]` tail, with the capture
already one character long: the answer `k` means the `]` sits `k` characters
into the remaining input and the capture extends over the `k` characters
before it.  A character `.` cannot match aborts the search. -/
def findCloseAux : List Char → Nat → Option Nat
  | [], _ => none
  | c :: rest, k =>
    if c = ']' then some k
    else if isDotChar c then findCloseAux rest (k + 1)
    else none

/-- Match `(.+?)\]` against `l`: the returned `k ≥ 1` is the capture length,
and `l` carries a `]` directly after those `k` dot-matched characters. -/
def findClose (l : List Char) : Option Nat :=
  match l with
  | [] => none
  | c0 :: rest => if isDotChar c0 then findCloseAux rest 1 else none

/-- Try the single-capture pattern `pre(.+?)\]` at the head of `l`; on success
return the full match length and the capture. -/
def tryPat1 (pre : List Char) (l : List Char) : Option (Nat × List Char) :=
  if l.take pre.length = pre then
    match findClose (l.drop pre.length) with
    | some k => some (pre.length + k + 1, (l.drop pre.length).take k)
    | none => none
  else none

/-- One `pattern.exec` loop for a single-capture pattern: successive
non-overlapping matches, the scan resuming after each full match.  Yields
`(matchIndex, fullMatchLength, capture)` triples.  The first argument is
recursion fuel: one unit per character position tried, so fuel equal to the
length of the scanned list never runs out (every step consumes at least one
character). -/
def scanPat1 (pre : List Char) : Nat → Nat → List Char → List (Nat × Nat × List Char)
  | 0, _, _ => []
  | _ + 1, _, [] => []
  | fuel + 1, i, c :: rest =>
    match tryPat1 pre (c :: rest) with
    | some (len, cap) => (i, len, cap) :: scanPat1 pre fuel (i + len) (rest.drop (len - 1))
    | none => scanPat1 pre fuel (i + 1) rest

/-- Lazy search for the split of `(.+?) -> (.+?)\]`: try the shortest first
capture first; for each candidate first capture check the literal ` -> ` and
then the lazy second capture via `findClose`.  Returns the two capture
lengths. -/
def goMod : List Char → Option (Nat × Nat)
  | [] => none
  | c :: rest =>
    if isDotChar c then
      match (if rest.take 4 = (" -> ").data then findClose (rest.drop 4) else none) with
      | some m => some (1, m)
      | none =>
        match goMod rest with
        | some (k, m) => some (k + 1, m)
        | none => none
    else none

/-- Try `[Modified: (.+?) -> (.+?)\]` at the head of `l`; on success return
the full match length and the two captures. -/
def tryPat2 (l : List Char) : Option (Nat × List Char × List Char) :=
  if l.take (("[Modified: ").data).length = ("[Modified: ").data then
    match goMod (l.drop (("[Modified: ").data).length) with
    | some (k, m) =>
      some ((("[Modified: ").data).length + k + 4 + m + 1,
            (l.drop (("[Modified: ").data).length).take k,
            ((l.drop (("[Modified: ").data).length).drop (k + 4)).take m)
    | none => none
  else none

/-- The `modifiedPattern.exec` loop (same fuel discipline as `scanPat1`). -/
def scanPat2 : Nat → Nat → List Char → List (Nat × Nat × List Char × List Char)
  | 0, _, _ => []
  | _ + 1, _, [] => []
  | fuel + 1, i, c :: rest =>
    match tryPat2 (c :: rest) with
    | some (len, cap1, cap2) =>
      (i, len, cap1, cap2) :: scanPat2 fuel (i + len) (rest.drop (len - 1))
    | none => scanPat2 fuel (i + 1) rest

/-- All matches of `/\[Added: (.+?)\]/g` on `content`, in scan order. -/
def addedMatches (content : String) : List (Nat × Nat × List Char) :=
  scanPat1 ("[Added: ").data content.data.length 0 content.data

/-- All matches of `/\[Deleted: (.+?)\]/g` on `content`, in scan order. -/
def deletedMatches (content : String) : List (Nat × Nat × List Char) :=
  scanPat1 ("[Deleted: ").data content.data.length 0 content.data

/-- All matches of `/\[Modified: (.+?) -> (.+?)\]/g` on `content`. -/
def modifiedMatches (content : String) : List (Nat × Nat × List Char × List Char) :=
  scanPat2 content.data.length 0 content.data

/-- The change pushed for one `[Added: ...]` match; `i` is the running shared
index feeding the generated id. -/
def mkAltAdded (now : Int) (i : Nat) (m : Nat × Nat × List Char) : RedlineChange :=
  { id := "alt-added-" ++ toString i, type := .added, text := String.mk m.2.2,
    author := "Document Author", timestamp := .valid now,
    location := { start := m.1, stop := m.1 + m.2.1 },
    comment := some "Added content detected" }

/-- The change pushed for one `[Deleted: ...]` match. -/
def mkAltDeleted (now : Int) (i : Nat) (m : Nat × Nat × List Char) : RedlineChange :=
  { id := "alt-deleted-" ++ toString i, type := .deleted, text := "",
    originalText := some (String.mk m.2.2),
    author := "Document Author", timestamp := .valid now,
    location := { start := m.1, stop := m.1 + m.2.1 },
    comment := some "Deleted content detected" }

/-- The change pushed for one `[Modified: ... -> ...]` match. -/
def mkAltModified (now : Int) (i : Nat) (m : Nat × Nat × List Char × List Char) :
    RedlineChange :=
  { id := "alt-modified-" ++ toString i, type := .modified, text := String.mk m.2.2.2,
    originalText := some (String.mk m.2.2.1),
    author := "Document Author", timestamp := .valid now,
    location := { start := m.1, stop := m.1 + m.2.1 },
    comment := some "Modified content detected" }

/-- `parseAlternativeTrackChanges(content)`: the three exec loops run one
after the other over the whole content, all `added` changes pushed first,
then all `deleted`, then all `modified`; the id counter is shared. -/
def parseAlternativeTrackChanges (now : Int) (content : String) : List RedlineChange :=
  let A := addedMatches content
  let D := deletedMatches content
  let M := modifiedMatches content
  A.enum.map (fun p => mkAltAdded now p.1 p.2)
    ++ D.enum.map (fun p => mkAltDeleted now (A.length + p.1) p.2)
    ++ M.enum.map (fun p => mkAltModified now (A.length + D.length + p.1) p.2)

/-! ### The orchestrator (`parseDocument` / `extractTrackChanges`)

One uploaded file is modelled by the observable outcomes of its asynchronous
stages: `conv1` is the result of the mammoth HTML conversion performed inside
`parseDocument` (`none` means the conversion rejected), `conv2` the result of
the second, independent conversion performed inside `getTextContent`, and
`structured` the outcome of the JSZip/xml2js stage of `extractTrackChanges`.
`now` is the extraction-time clock.  Every `throw`/rejection in the source
becomes a case of these outcome types, and `try`/`catch` becomes the explicit
case analysis below. -/

/-- Outcome of reading and parsing `word/comments.xml`:  the entry may be
absent, its `parseXMLPromise` call may reject (which aborts the whole `try`
block of `extractTrackChanges`), or it yields a parsed tree. -/
inductive CommentsPart where
  | absent
  | parseFail
  | parsed (c : JsVal)

/-- Outcome of the structured stage: `zip.loadAsync` may throw, the mandatory
`word/document.xml` entry may be missing (the source then throws), its XML
parse may reject, or it yields a parsed tree plus the comments-part outcome. -/
inductive StructuredOutcome where
  | loadFail
  | noDocumentXml
  | docParseFail
  | parsed (doc : JsVal) (comments : CommentsPart)

structure FileModel where
  name : String
  lastModified : Int
  now : Int
  conv1 : Option String
  conv2 : Option String
  structured : StructuredOutcome

/-- `getTextContent(file)`: second mammoth conversion with its own
`try`/`catch`; a failure is swallowed and yields the empty string. -/
def getTextContent (f : FileModel) : String :=
  match f.conv2 with
  | some html => htmlToText html
  | none => ""

/-- The `catch` block of `extractTrackChanges`: run the fallback extractor on
the plain text; keep its result only when non-empty, else return `[]`.
(`getTextContent` cannot reject and `parseAlternativeTrackChanges` cannot
throw, so the inner `catch (altError)` branch is dead.) -/
def catchBlockResult (f : FileModel) : List RedlineChange :=
  let alternativeChanges := parseAlternativeTrackChanges f.now (getTextContent f)
  if alternativeChanges.length > 0 then alternativeChanges else []

/-- `extractTrackChanges(file)`: on any throw inside the `try` block —
archive failure, missing `document.xml`, XML parse rejection of either entry —
the accumulated changes are discarded and the `catch` block runs the fallback
path; otherwise the structured changes (with comment changes appended when
`word/comments.xml` was present and parsed) are returned, even when empty. -/
def extractTrackChanges (f : FileModel) : List RedlineChange :=
  match f.structured with
  | .parsed doc comments =>
    let changes := extractChangesFromXML f.now doc
    match comments with
    | .absent => changes
    | .parsed c => changes ++ extractCommentsFromXML f.now c
    | .parseFail => catchBlockResult f
  | _ => catchBlockResult f

/-- `[...new Set(xs)]` — JS `Set` keeps insertion order, so this retains the
first occurrence of each element. -/
def jsSetDedup (l : List String) : List String :=
  l.foldl (fun acc x => if x ∈ acc then acc else acc ++ [x]) []

structure DocxParseResult where
  content : String
  changes : List RedlineChange
  metadata : DocumentMetadata
deriving DecidableEq, Repr

/-- `parseDocument(file)`:  the one `try` block covers the mammoth conversion,
`extractTrackChanges` and the metadata assembly; only the conversion can
throw (`extractTrackChanges` absorbs every internal failure), and that error
is re-thrown as the "Failed to parse document" error — modelled as
`Except.error ()`, the message not being load-bearing for any claim. -/
def parseDocument (f : FileModel) : Except Unit DocxParseResult :=
  match f.conv1 with
  | none => .error ()
  | some htmlContent =>
    let textContent := htmlToText htmlContent
    let changes := extractTrackChanges f
    .ok { content := textContent
          changes := changes
          metadata :=
            { filename := f.name
              uploadedAt := .valid f.now
              lastModified := .valid f.lastModified
              wordCount := (jsSplitWs textContent).length
              changeCount := changes.length
              authors := jsSetDedup (changes.map (fun c => c.author)) } }

/-! ### Derived descriptions of the orchestrator's branches

These definitions restate, as standalone functions, which branch of
`extractTrackChanges` runs; they are used to phrase the claims about the
error/degradation policy. -/

/-- Whether the `try` block of `extractTrackChanges` throws. -/
def structuredRaises (f : FileModel) : Bool :=
  match f.structured with
  | .parsed _ .parseFail => true
  | .parsed _ _ => false
  | _ => true

/-- The changes accumulated by the structured path when it completes. -/
def structuredChanges (f : FileModel) : List RedlineChange :=
  match f.structured with
  | .parsed doc .absent => extractChangesFromXML f.now doc
  | .parsed doc (.parsed c) =>
    extractChangesFromXML f.now doc ++ extractCommentsFromXML f.now c
  | _ => []

/-! ### The DOM-based alternate implementation

The repository carries a second version of `DocxParser` whose
`extractChangesFromXML` works on a `DOMParser` document instead of an xml2js
value.  `Dom` models a parsed XML node: `querySelectorAll` against an XML
document matches type selectors on the qualified tag name (the selector
string `'ins, w\\:ins'` therefore matches both the unprefixed and the
`w:`-prefixed element), in document (pre-)order. -/

inductive Dom where
  | elem (tagName : String) (attrs : List (String × String)) (children : List Dom)
  | text (s : String)

mutual

/-- `document.querySelectorAll(sel)` for a list of plain tag-name selectors:
all elements whose qualified tag name is one of `tags`, in document order. -/
def domSelectAll (tags : List String) : Dom → List Dom
  | .text _ => []
  | .elem t a c =>
    (if t ∈ tags then [Dom.elem t a c] else []) ++ domSelectAllList tags c

def domSelectAllList (tags : List String) : List Dom → List Dom
  | [] => []
  | n :: ns => domSelectAll tags n ++ domSelectAllList tags ns

end

mutual

/-- `element.querySelectorAll('*')`: every element of the subtree, in
document order (on a document node this is every element of the document). -/
def domAllElements : Dom → List Dom
  | .text _ => []
  | .elem t a c => Dom.elem t a c :: domAllElementsList c

def domAllElementsList : List Dom → List Dom
  | [] => []
  | n :: ns => domAllElements n ++ domAllElementsList ns

end

mutual

/-- `node.textContent`: concatenation of all descendant text nodes. -/
def domTextContent : Dom → String
  | .text s => s
  | .elem _ _ c => domTextContentList c

def domTextContentList : List Dom → String
  | [] => ""
  | n :: ns => domTextContent n ++ domTextContentList ns

end

/-- `element.getAttribute(name)` (`none` models `null`). -/
def domGetAttribute (e : Dom) (name : String) : Option String :=
  match e with
  | .elem _ attrs _ => attrs.lookup name
  | .text _ => none

/-- `element.tagName` (the empty string on a text node, never relevant). -/
def domTagName : Dom → String
  | .elem t _ _ => t
  | .text _ => ""

/-- JS `haystack.includes(needle)` on strings. -/
def jsIncludesAux (needle : List Char) : List Char → Bool
  | [] => needle.isEmpty
  | c :: rest => needle.isPrefixOf (c :: rest) || jsIncludesAux needle rest

def jsIncludes (haystack needle : String) : Bool :=
  jsIncludesAux needle.data haystack.data

/-- `extractTextFromElement` of the DOM version: start from the element's
`textContent`, then for every descendant `t`/`w:t`/`delText`/`w:delText`
element append its text when non-empty and not already a substring of the
accumulated text, and trim the result. -/
def domExtractTextFromElement (e : Dom) : String :=
  let text := domTextContent e
  let textElements :=
    match e with
    | .elem _ _ c => domSelectAllList ["t", "w:t", "delText", "w:delText"] c
    | .text _ => []
  let text := textElements.foldl
    (fun acc tEl =>
      let elementText := domTextContent tEl
      if elementText ≠ "" && !(jsIncludes acc elementText) then acc ++ " " ++ elementText
      else acc)
    text
  jsTrimS text

/-- The body of the first `forEach` of the DOM `extractChangesFromXML`
(insertions via `querySelectorAll('ins, w\\:ins')`). -/
def domInsCallback (now : Int) (e : Dom) : Option RedlineChange :=
  let text := domExtractTextFromElement e
  let author := firstTruthy [domGetAttribute e "w:author", domGetAttribute e "author"] "Unknown"
  let dateStr := firstTruthyOpt [domGetAttribute e "w:date", domGetAttribute e "date"]
  let date := match dateStr with
    | some s => jsNewDate s
    | none => JsDate.valid now
  if jsTrimS text ≠ "" then
    some { id := "ins", type := .added, text := jsTrimS text, author := author,
           timestamp := date, location := { start := 0, stop := text.length } }
  else none

/-- The body of the second `forEach` (deletions via
`querySelectorAll('del, w\\:del')`). -/
def domDelCallback (now : Int) (e : Dom) : Option RedlineChange :=
  let text := domExtractTextFromElement e
  let author := firstTruthy [domGetAttribute e "w:author", domGetAttribute e "author"] "Unknown"
  let dateStr := firstTruthyOpt [domGetAttribute e "w:date", domGetAttribute e "date"]
  let date := match dateStr with
    | some s => jsNewDate s
    | none => JsDate.valid now
  if jsTrimS text ≠ "" then
    some { id := "del", type := .deleted, text := "", originalText := some (jsTrimS text),
           author := author, timestamp := date,
           location := { start := 0, stop := text.length } }
  else none

/-- The body of the third `forEach` (every element whose tag name contains
`:ins` or `:del`; note this pass reads only the `w:`-prefixed attributes). -/
def domNsCallback (now : Int) (e : Dom) : Option RedlineChange :=
  if jsIncludes (domTagName e) ":ins" || jsIncludes (domTagName e) ":del" then
    let text := domExtractTextFromElement e
    let author := firstTruthy [domGetAttribute e "w:author"] "Unknown"
    let dateStr := firstTruthyOpt [domGetAttribute e "w:date"]
    let date := match dateStr with
      | some s => jsNewDate s
      | none => JsDate.valid now
    if jsTrimS text ≠ "" then
      let isInsertion := jsIncludes (domTagName e) ":ins"
      some { id := if isInsertion then "ins" else "del",
             type := if isInsertion then .added else .deleted,
             text := if isInsertion then jsTrimS text else "",
             originalText := if isInsertion then none else some (jsTrimS text),
             author := author, timestamp := date,
             location := { start := 0, stop := text.length } }
    else none
  else none

/-- `extractChangesFromXML(xmlDoc, changes)` of the DOM-based version: the
insertion pass, then the deletion pass, then the namespace-substring pass
(the latter re-reporting `w:`-prefixed elements already found). -/
def domExtractChangesFromXML (now : Int) (doc : Dom) : List RedlineChange :=
  (domSelectAll ["ins", "w:ins"] doc).filterMap (domInsCallback now)
    ++ (domSelectAll ["del", "w:del"] doc).filterMap (domDelCallback now)
    ++ (domAllElements doc).filterMap (domNsCallback now)

/-! ### Spec-side definitions

Definitions written from the specification's words rather than from the
source, used on the specification side of refinement statements. -/

/-- Modelled from the spec: "the set of distinct authors observed across all
changes (order of first appearance, duplicates removed)" — keep the first
occurrence of each element, discard the later ones. -/
def specFirstSeenDedup : List String → List String
  | [] => []
  | x :: xs => x :: specFirstSeenDedup (xs.filter (fun y => y ≠ x))
termination_by l => l.length
decreasing_by
  simp only [List.length_cons]
  have h1 : (xs.filter (fun y => y ≠ x)).length ≤ xs.length := List.length_filter_le _ _
  omega

/-- String whose character list is non-whitespace at both ends (the shape of
every `htmlToText` result). -/
def noLeadWs (cs : List Char) : Bool :=
  match cs with
  | [] => true
  | c :: _ => !isWs c

def noTrailWs (cs : List Char) : Bool :=
  match cs.getLast? with
  | some c => !isWs c
  | none => true

/-! ### Concrete example inputs used by counterexamples and witnesses -/

/-- A `w:document` tree with one `w:ins` element carrying author, date and a
`w:t` text child. -/
def exDocIns : JsVal :=
  JsVal.obj [("w:document", JsVal.obj [("w:ins", JsVal.obj
    [("w:t", JsVal.str "hello"),
     ("$", JsVal.obj [("w:author", JsVal.str "Alice"),
                      ("w:date", JsVal.str "2024-01-02T03:04:05Z")])])])]

/-- A structured-success upload whose document tree is `exDocIns`. -/
def exFileStructured : FileModel :=
  { name := "doc.docx", lastModified := 3, now := 9,
    conv1 := some "hello world", conv2 := none,
    structured := .parsed exDocIns .absent }

/-- The single change `exDocIns` yields. -/
def exChangeIns : RedlineChange :=
  { id := "ins", type := .added, text := "hello", author := "Alice",
    timestamp := .valid 1704164645000, location := { start := 0, stop := 5 } }

/-- The full `parseDocument` result for `exFileStructured`. -/
def exResultStructured : DocxParseResult :=
  { content := "hello world", changes := [exChangeIns],
    metadata := { filename := "doc.docx", uploadedAt := .valid 9,
                  lastModified := .valid 3, wordCount := 2, changeCount := 1,
                  authors := ["Alice"] } }

/-- Structured stage succeeds with an empty document tree (zero changes) while
the plain text contains a fallback-recognizable annotation. -/
def exFileEmptyStructured : FileModel :=
  { name := "f", lastModified := 0, now := 0, conv1 := some "x",
    conv2 := some "[Added: hi]", structured := .parsed (JsVal.obj []) .absent }

/-- Structured stage throws; the plain text contains one `[Added: ...]`. -/
def exFileFallback : FileModel :=
  { name := "f", lastModified := 0, now := 0, conv1 := some "x",
    conv2 := some "[Added: hi]", structured := .loadFail }

/-- Structured stage throws and the second conversion also fails. -/
def exFileBothFail : FileModel :=
  { name := "f", lastModified := 0, now := 0, conv1 := some "x",
    conv2 := none, structured := .docParseFail }

/-- The mammoth conversion yields empty HTML, so `content` is empty. -/
def exFileEmptyContent : FileModel :=
  { name := "e", lastModified := 0, now := 0, conv1 := some "",
    conv2 := none, structured := .loadFail }

/-- A `w:document` tree whose `w:ins` element is unprefixed (`ins`). -/
def exDocUnprefixedIns : JsVal :=
  JsVal.obj [("w:document", JsVal.obj [("ins", JsVal.obj [("w:t", JsVal.str "hello")])])]

/-- The same tree with the namespace-qualified tag. -/
def exDocPrefixedIns : JsVal :=
  JsVal.obj [("w:document", JsVal.obj [("w:ins", JsVal.obj [("w:t", JsVal.str "hello")])])]

/-- A `w:ins` element whose author attribute is written unprefixed. -/
def exDocUnprefixedAuthor : JsVal :=
  JsVal.obj [("w:document", JsVal.obj [("w:ins", JsVal.obj
    [("w:t", JsVal.str "hello"),
     ("$", JsVal.obj [("author", JsVal.str "Alice")])])])]

/-- A `w:ins` element whose (parseable) date attribute is written
unprefixed. -/
def exDocUnprefixedDate : JsVal :=
  JsVal.obj [("w:document", JsVal.obj [("w:ins", JsVal.obj
    [("w:t", JsVal.str "hello"),
     ("$", JsVal.obj [("w:author", JsVal.str "A"),
                      ("date", JsVal.str "2024-01-02T03:04:05Z")])])])]

/-- A `w:document` tree whose `w:ins` carries an unparseable date attribute. -/
def exDocBadDate : JsVal :=
  JsVal.obj [("w:document", JsVal.obj [("w:ins", JsVal.obj
    [("w:t", JsVal.str "hello"),
     ("$", JsVal.obj [("w:author", JsVal.str "A"),
                      ("w:date", JsVal.str "notadate")])])])]

/-- A bare `w:ins` element with a parseable date, for the timestamp witness. -/
def exInsGoodDate : JsVal :=
  JsVal.obj [("w:t", JsVal.str "hi"),
             ("$", JsVal.obj [("w:date", JsVal.str "2024-01-02T03:04:05Z")])]

/-- A DOM `ins` element with unprefixed author and date attributes. -/
def exDomIns : Dom :=
  Dom.elem "ins" [("author", "Alice"), ("date", "2024-01-02T03:04:05Z")] [Dom.text "hi"]

/-- A parsed `comments.xml` tree with a single comment. -/
def exDocComments : JsVal :=
  JsVal.obj [("w:comments", JsVal.obj [("w:comment", JsVal.obj
    [("w:t", JsVal.str "note"),
     ("$", JsVal.obj [("w:author", JsVal.str "B")])])])]

/-- The change `exDocComments` yields through the comment extractor. -/
def exChangeComment : RedlineChange :=
  { id := "comment", type := .comment, text := "note", author := "B",
    timestamp := .valid 0, location := { start := 0, stop := 0 },
    comment := some "note" }

/-- The change `exInsGoodDate` yields through the insertion callback. -/
def exChangeGoodDate : RedlineChange :=
  { id := "ins", type := .added, text := "hi", author := "Unknown",
    timestamp := .valid 1704164645000, location := { start := 0, stop := 2 } }

/-- The worked fallback example from the specification. -/
def feeContent : String := "The fee is [Modified: $100 -> $150] per month."

/-- The single change the fallback extractor finds in `feeContent`. -/
def exChangeFee : RedlineChange :=
  { id := "alt-modified-0", type := .modified, text := "$150",
    originalText := some "$100", author := "Document Author",
    timestamp := .valid 0, location := { start := 11, stop := 35 },
    comment := some "Modified content detected" }

/-! ## Helper lemmas -/

theorem parseAlternativeTrackChanges_empty_content (now : Int) :
    parseAlternativeTrackChanges now "" = [] := rfl

/-- The `catch` block yields nothing when the second conversion failed. -/
theorem catchBlockResult_conv2_none (f : FileModel) (h : f.conv2 = none) :
    catchBlockResult f = [] := by
  have hgtc : getTextContent f = "" := by simp [getTextContent, h]
  unfold catchBlockResult
  rw [hgtc]
  rfl

/-- Inversion for a successful `parseDocument`: the result's fields in terms
of the model. -/
theorem parseDocument_ok_inv (f : FileModel) (r : DocxParseResult)
    (h : parseDocument f = .ok r) :
    ∃ html, f.conv1 = some html ∧
      r.content = htmlToText html ∧
      r.changes = extractTrackChanges f ∧
      r.metadata.authors = jsSetDedup (r.changes.map (fun c => c.author)) ∧
      r.metadata.changeCount = r.changes.length ∧
      r.metadata.wordCount = (jsSplitWs r.content).length := by
  unfold parseDocument at h
  cases hc : f.conv1 with
  | none => rw [hc] at h; exact absurd h (by simp)
  | some html =>
    rw [hc] at h
    simp only [Except.ok.injEq] at h
    subst h
    exact ⟨html, rfl, rfl, rfl, rfl, rfl, rfl⟩

/-- Fields of a change produced by the `w:ins` callback. -/
theorem insCallback_some_inv (now : Int) (e : JsVal) (ch : RedlineChange)
    (h : insCallback now e = some ch) :
    ch.type = .added ∧ ch.text = extractTextFromElement e ∧ ch.text ≠ "" ∧
    ch.originalText = none ∧ ch.comment = none ∧ ch.suggestions = none ∧
    ch.resolved = none := by
  simp only [insCallback, ne_eq] at h
  split at h
  · injection h with h
    subst h
    refine ⟨rfl, rfl, ?_, rfl, rfl, rfl, rfl⟩
    simpa using (by assumption : ¬extractTextFromElement e = "")
  · exact absurd h (by simp)

/-- Fields of a change produced by the `w:del` callback. -/
theorem delCallback_some_inv (now : Int) (e : JsVal) (ch : RedlineChange)
    (h : delCallback now e = some ch) :
    ch.type = .deleted ∧ ch.text = "" ∧
    ch.originalText = some (extractTextFromElement e) ∧
    extractTextFromElement e ≠ "" ∧ ch.comment = none ∧ ch.suggestions = none ∧
    ch.resolved = none := by
  simp only [delCallback, ne_eq] at h
  split at h
  · injection h with h
    subst h
    refine ⟨rfl, rfl, rfl, ?_, rfl, rfl, rfl⟩
    simpa using (by assumption : ¬extractTextFromElement e = "")
  · exact absurd h (by simp)

/-- Fields of a change produced by the comment callback. -/
theorem commentCallback_some_inv (now : Int) (c : JsVal) (ch : RedlineChange)
    (h : commentCallback now c = some ch) :
    ch.type = .comment ∧ ch.suggestions = none ∧ ch.resolved = none := by
  simp only [commentCallback, ne_eq] at h
  split at h
  · injection h with h
    subst h
    exact ⟨rfl, rfl, rfl⟩
  · exact absurd h (by simp)

/-- Field facts for every structured insertion/deletion change. -/
theorem extractChangesFromXML_mem_inv (now : Int) (doc : JsVal) (ch : RedlineChange)
    (h : ch ∈ extractChangesFromXML now doc) :
    ((ch.type = .added ∧ ch.text ≠ "" ∧ ch.originalText = none) ∨
     (ch.type = .deleted ∧ ch.text = "" ∧ ∃ s, ch.originalText = some s ∧ s ≠ "")) ∧
    ch.comment = none ∧ ch.suggestions = none ∧ ch.resolved = none := by
  unfold extractChangesFromXML at h
  split at h
  · split at h
    · rcases List.mem_append.mp h with h1 | h1
      · obtain ⟨e, _, he⟩ := List.mem_filterMap.mp h1
        obtain ⟨ht, _, hne, ho, hc, hs, hr⟩ := insCallback_some_inv now e ch he
        exact ⟨Or.inl ⟨ht, hne, ho⟩, hc, hs, hr⟩
      · obtain ⟨e, _, he⟩ := List.mem_filterMap.mp h1
        obtain ⟨ht, htx, ho, hne, hc, hs, hr⟩ := delCallback_some_inv now e ch he
        exact ⟨Or.inr ⟨ht, htx, extractTextFromElement e, ho, hne⟩, hc, hs, hr⟩
    · exact absurd h (by simp)
  · exact absurd h (by simp)

/-- Field facts for every extracted comment change. -/
theorem extractCommentsFromXML_mem_inv (now : Int) (c : JsVal) (ch : RedlineChange)
    (h : ch ∈ extractCommentsFromXML now c) :
    ch.type = .comment ∧ ch.suggestions = none ∧ ch.resolved = none := by
  unfold extractCommentsFromXML at h
  split at h
  · split at h
    · obtain ⟨e, _, he⟩ := List.mem_filterMap.mp h
      exact commentCallback_some_inv now e ch he
    · exact absurd h (by simp)
  · exact absurd h (by simp)

theorem findCloseAux_ge (l : List Char) : ∀ i k, findCloseAux l i = some k → i ≤ k := by
  induction l with
  | nil => intro i k h; exact absurd h (by simp [findCloseAux])
  | cons c rest ih =>
    intro i k h
    unfold findCloseAux at h
    split at h
    · injection h with h; omega
    · split at h
      · exact Nat.le_of_succ_le (ih (i + 1) k h)
      · exact absurd h (by simp)

theorem findClose_inv (l : List Char) (k : Nat) (h : findClose l = some k) :
    1 ≤ k ∧ l ≠ [] := by
  cases l with
  | nil => exact absurd h (by simp [findClose])
  | cons c rest =>
    simp only [findClose] at h
    split at h
    · exact ⟨findCloseAux_ge rest 1 k h, by simp⟩
    · exact absurd h (by simp)

/-- The capture of a single-capture pattern match is never empty. -/
theorem tryPat1_cap_ne_nil (pre l : List Char) (len : Nat) (cap : List Char)
    (h : tryPat1 pre l = some (len, cap)) : cap ≠ [] := by
  unfold tryPat1 at h
  split at h
  · cases hfc : findClose (l.drop pre.length) with
    | none => rw [hfc] at h; exact absurd h (by simp)
    | some k =>
      rw [hfc] at h
      obtain ⟨hk, hne⟩ := findClose_inv _ _ hfc
      injection h with h
      injection h with h1 h2
      subst h2
      simp only [ne_eq, List.take_eq_nil_iff]
      push_neg
      exact ⟨by omega, hne⟩
  · exact absurd h (by simp)

/-- Every match produced by a `scanPat1` loop comes from a `tryPat1` success
on some suffix. -/
theorem scanPat1_mem_tryPat1 (pre : List Char) :
    ∀ (fuel i : Nat) (l : List Char) (m : Nat × Nat × List Char),
      m ∈ scanPat1 pre fuel i l → ∃ l', tryPat1 pre l' = some (m.2.1, m.2.2) := by
  intro fuel
  induction fuel with
  | zero => intro i l m h; exact absurd h (by simp [scanPat1])
  | succ fuel ih =>
    intro i l m h
    cases l with
    | nil => exact absurd h (by simp [scanPat1])
    | cons c rest =>
      unfold scanPat1 at h
      cases htry : tryPat1 pre (c :: rest) with
      | some r =>
        rw [htry] at h
        rcases List.mem_cons.mp h with h1 | h1
        · subst h1; exact ⟨c :: rest, htry⟩
        · exact ih _ _ m h1
      | none =>
        rw [htry] at h
        exact ih _ _ m h

/-- An enumerated member's payload is a member. -/
theorem mem_of_mem_enum {α : Type} {l : List α} {p : Nat × α} (h : p ∈ l.enum) :
    p.2 ∈ l := by
  have h2 := List.mem_map_of_mem Prod.snd h
  rwa [List.enum_map_snd] at h2

/-- Field facts for every fallback-path change. -/
theorem parseAlternativeTrackChanges_mem_inv (now : Int) (content : String)
    (ch : RedlineChange) (h : ch ∈ parseAlternativeTrackChanges now content) :
    (ch.type = .added → ch.text ≠ "" ∧ ch.originalText = none) ∧
    (ch.type = .deleted → ch.text = "" ∧ ∃ s, ch.originalText = some s ∧ s ≠ "") ∧
    ch.author = "Document Author" ∧ ch.timestamp = .valid now ∧
    ch.suggestions = none ∧ ch.resolved = none := by
  unfold parseAlternativeTrackChanges at h
  rcases List.mem_append.mp h with h1 | hM
  · rcases List.mem_append.mp h1 with hA | hD
    · -- added group
      obtain ⟨p, hp, rfl⟩ := List.mem_map.mp hA
      have hm := mem_of_mem_enum hp
      obtain ⟨l', htry⟩ := scanPat1_mem_tryPat1 _ _ _ _ _ hm
      have hcap := tryPat1_cap_ne_nil _ _ _ _ htry
      refine ⟨?_, by intro hty; exact absurd hty (by simp [mkAltAdded]), rfl, rfl, rfl, rfl⟩
      intro _
      refine ⟨?_, rfl⟩
      simpa [mkAltAdded, String.ext_iff] using hcap
    · -- deleted group
      obtain ⟨p, hp, rfl⟩ := List.mem_map.mp hD
      have hm := mem_of_mem_enum hp
      obtain ⟨l', htry⟩ := scanPat1_mem_tryPat1 _ _ _ _ _ hm
      have hcap := tryPat1_cap_ne_nil _ _ _ _ htry
      refine ⟨by intro hty; exact absurd hty (by simp [mkAltDeleted]), ?_, rfl, rfl, rfl, rfl⟩
      intro _
      refine ⟨rfl, String.mk p.2.2.2, rfl, ?_⟩
      simpa [String.ext_iff] using hcap
  · -- modified group: both implications are vacuous
    obtain ⟨p, hp, rfl⟩ := List.mem_map.mp hM
    exact ⟨by intro hty; exact absurd hty (by simp [mkAltModified]),
           by intro hty; exact absurd hty (by simp [mkAltModified]), rfl, rfl, rfl, rfl⟩

/-- The comment extractor copies the recovered text into the `comment`
field. -/
theorem commentCallback_comment_eq_text (now : Int) (c : JsVal) (ch : RedlineChange)
    (h : commentCallback now c = some ch) : ch.comment = some ch.text := by
  simp only [commentCallback, ne_eq] at h
  split at h
  · injection h with h
    subst h
    rfl
  · exact absurd h (by simp)

theorem extractCommentsFromXML_mem_comment (now : Int) (c : JsVal) (ch : RedlineChange)
    (h : ch ∈ extractCommentsFromXML now c) : ch.comment = some ch.text := by
  unfold extractCommentsFromXML at h
  split at h
  · split at h
    · obtain ⟨e, _, he⟩ := List.mem_filterMap.mp h
      exact commentCallback_comment_eq_text now e ch he
    · exact absurd h (by simp)
  · exact absurd h (by simp)

/-- Every fallback-path change carries the fixed description comment of its
pattern group. -/
theorem parseAlternativeTrackChanges_mem_comment (now : Int) (content : String)
    (ch : RedlineChange) (h : ch ∈ parseAlternativeTrackChanges now content) :
    (ch.type = .added ∧ ch.comment = some "Added content detected") ∨
    (ch.type = .deleted ∧ ch.comment = some "Deleted content detected") ∨
    (ch.type = .modified ∧ ch.comment = some "Modified content detected") := by
  unfold parseAlternativeTrackChanges at h
  rcases List.mem_append.mp h with h1 | hM
  · rcases List.mem_append.mp h1 with hA | hD
    · obtain ⟨p, _, rfl⟩ := List.mem_map.mp hA
      exact Or.inl ⟨rfl, rfl⟩
    · obtain ⟨p, _, rfl⟩ := List.mem_map.mp hD
      exact Or.inr (Or.inl ⟨rfl, rfl⟩)
  · obtain ⟨p, _, rfl⟩ := List.mem_map.mp hM
    exact Or.inr (Or.inr ⟨rfl, rfl⟩)

/-- Dispatch: every engine change comes from one of the three extractors. -/
theorem extractTrackChanges_mem_cases (f : FileModel) (ch : RedlineChange)
    (h : ch ∈ extractTrackChanges f) :
    (∃ doc, ch ∈ extractChangesFromXML f.now doc) ∨
    (∃ c, ch ∈ extractCommentsFromXML f.now c) ∨
    ch ∈ parseAlternativeTrackChanges f.now (getTextContent f) := by
  have hcb : ch ∈ catchBlockResult f →
      ch ∈ parseAlternativeTrackChanges f.now (getTextContent f) := by
    intro hc
    simp only [catchBlockResult] at hc
    split at hc
    · exact hc
    · exact absurd hc (by simp)
  unfold extractTrackChanges at h
  rcases hs : f.structured with _ | _ | _ | ⟨doc, comments⟩ <;> rw [hs] at h
  · exact Or.inr (Or.inr (hcb h))
  · exact Or.inr (Or.inr (hcb h))
  · exact Or.inr (Or.inr (hcb h))
  · cases comments with
    | absent => exact Or.inl ⟨doc, h⟩
    | parseFail => exact Or.inr (Or.inr (hcb h))
    | parsed c =>
      rcases List.mem_append.mp h with h1 | h1
      · exact Or.inl ⟨doc, h1⟩
      · exact Or.inr (Or.inl ⟨c, h1⟩)

/-- The `[...new Set(...)]` fold equals first-seen deduplication, for any
starting accumulator. -/
theorem foldl_setDedup_eq (l : List String) : ∀ acc : List String,
    l.foldl (fun acc x => if x ∈ acc then acc else acc ++ [x]) acc
      = acc ++ specFirstSeenDedup (l.filter (fun y => y ∉ acc)) := by
  induction l with
  | nil => intro acc; simp [specFirstSeenDedup]
  | cons x xs ih =>
    intro acc
    by_cases hx : x ∈ acc
    · simp only [List.foldl_cons, if_pos hx]
      rw [ih acc]
      have hf : (x :: xs).filter (fun y => decide (y ∉ acc))
          = xs.filter (fun y => decide (y ∉ acc)) := by
        simp [List.filter_cons, hx]
      rw [hf]
    · simp only [List.foldl_cons, if_neg hx]
      rw [ih (acc ++ [x])]
      have hf : (x :: xs).filter (fun y => decide (y ∉ acc))
          = x :: xs.filter (fun y => decide (y ∉ acc)) := by
        simp [List.filter_cons, hx]
      rw [hf]
      have hspec : specFirstSeenDedup (x :: xs.filter (fun y => decide (y ∉ acc)))
          = x :: specFirstSeenDedup
              ((xs.filter (fun y => decide (y ∉ acc))).filter (fun y => y ≠ x)) := by
        simp [specFirstSeenDedup]
      rw [hspec]
      have hff : xs.filter (fun y => decide (y ∉ acc ++ [x]))
          = (xs.filter (fun y => decide (y ∉ acc))).filter (fun y => y ≠ x) := by
        rw [List.filter_filter]
        apply List.filter_congr
        intro y _
        simp [List.mem_append, not_or, Decidable.not_not, and_comm]
      rw [hff, List.append_assoc]
      rfl

/-- `[...new Set(xs)]` is exactly the spec's first-appearance-order
de-duplication. -/
theorem jsSetDedup_eq_specFirstSeenDedup (l : List String) :
    jsSetDedup l = specFirstSeenDedup l := by
  unfold jsSetDedup
  rw [foldl_setDedup_eq l []]
  simp

/-- The timestamp written by both structured callbacks, as a function of the
date attribute. -/
theorem callback_timestamp_eq (now : Int) (e : JsVal) (ch : RedlineChange)
    (h : insCallback now e = some ch ∨ delCallback now e = some ch) :
    ch.timestamp = (match firstTruthyOpt [jsGetAttr e "w:date"] with
      | some s => jsNewDate s
      | none => JsDate.valid now) := by
  rcases h with h | h
  · simp only [insCallback, ne_eq] at h
    split at h
    · injection h with h; subst h; rfl
    · exact absurd h (by simp)
  · simp only [delCallback, ne_eq] at h
    split at h
    · injection h with h; subst h; rfl
    · exact absurd h (by simp)

/-! ### Whitespace-split vs token-count lemmas (for the word count claim) -/

theorem noTrailWs_cons (c : Char) (rest : List Char) (h : rest ≠ []) :
    noTrailWs (c :: rest) = noTrailWs rest := by
  cases rest with
  | nil => exact absurd rfl h
  | cons d t => unfold noTrailWs; rw [List.getLast?_cons_cons]

theorem noTrailWs_cons_ws (c : Char) (rest : List Char) (hw : isWs c = true)
    (h : noTrailWs (c :: rest) = true) : rest ≠ [] := by
  intro hr
  subst hr
  simp [noTrailWs, hw] at h

/-- After dropping leading whitespace, the head (if any) is not whitespace. -/
theorem noLeadWs_dropWhile (l : List Char) : noLeadWs (l.dropWhile isWs) = true := by
  induction l with
  | nil => rfl
  | cons c rest ih =>
    by_cases hc : isWs c = true
    · rw [List.dropWhile_cons_of_pos hc]; exact ih
    · rw [List.dropWhile_cons_of_neg (by simp [hc])]
      simp [noLeadWs, hc]

/-- `dropWhile` keeps the last element when it returns anything at all. -/
theorem getLast?_dropWhile (p : Char → Bool) (l : List Char)
    (h : l.dropWhile p ≠ []) : (l.dropWhile p).getLast? = l.getLast? := by
  induction l with
  | nil => simp at h
  | cons c rest ih =>
    by_cases hc : p c = true
    · rw [List.dropWhile_cons_of_pos hc] at h ⊢
      have hrest : rest ≠ [] := by
        intro hr; subst hr; exact h (by simp)
      rw [ih h]
      cases rest with
      | nil => exact absurd rfl hrest
      | cons d t => rw [List.getLast?_cons_cons]
    · rw [List.dropWhile_cons_of_neg (by simp [hc])]

/-- `noLeadWs` in terms of `head?`. -/
theorem noLeadWs_head? (l : List Char) :
    noLeadWs l = (match l.head? with | some c => !isWs c | none => true) := by
  cases l <;> rfl

/-- A trimmed character list never starts with whitespace. -/
theorem jsTrim_noLeadWs (cs : List Char) : noLeadWs (jsTrim cs) = true := by
  unfold jsTrim
  by_cases hy : (cs.dropWhile isWs).reverse.dropWhile isWs = []
  · rw [hy]; rfl
  · rw [noLeadWs_head?, List.head?_reverse, getLast?_dropWhile _ _ hy,
        List.getLast?_reverse]
    have h2 := noLeadWs_dropWhile cs
    rwa [noLeadWs_head?] at h2

/-- A trimmed character list never ends with whitespace. -/
theorem jsTrim_noTrailWs (cs : List Char) : noTrailWs (jsTrim cs) = true := by
  unfold jsTrim
  unfold noTrailWs
  rw [List.getLast?_reverse]
  have := noLeadWs_dropWhile ((cs.dropWhile isWs).reverse)
  rw [noLeadWs_head?] at this
  exact this

/-- Joint step: away from a trailing whitespace character, the `split(/\s+/)`
scan and the token scan produce the same number of pieces, whatever the
accumulated piece contents. -/
theorem splitWs_tokens_length (n : Nat) : ∀ cs : List Char, cs.length ≤ n →
    noTrailWs cs = true →
    ((∀ acc acc2 : List Char, (splitWsGo cs acc).length = (tokensIn cs acc2).length) ∧
     (cs ≠ [] → (splitWsSkip cs).length = (tokensGo cs).length)) := by
  induction n with
  | zero =>
    intro cs hlen _
    have : cs = [] := List.length_eq_zero.mp (Nat.le_zero.mp hlen)
    subst this
    exact ⟨fun acc acc2 => rfl, fun h => absurd rfl h⟩
  | succ n ih =>
    intro cs hlen htrail
    cases cs with
    | nil => exact ⟨fun acc acc2 => rfl, fun h => absurd rfl h⟩
    | cons c rest =>
      have hlen' : rest.length ≤ n := by
        simp only [List.length_cons] at hlen; omega
      by_cases hc : isWs c = true
      · have hrest : rest ≠ [] := noTrailWs_cons_ws c rest hc htrail
        have htrail' : noTrailWs rest = true := by
          rw [noTrailWs_cons c rest hrest] at htrail; exact htrail
        obtain ⟨ihA, ihB⟩ := ih rest hlen' htrail'
        constructor
        · intro acc acc2
          simp only [splitWsGo, tokensIn, hc, if_pos, List.length_cons]
          exact congrArg Nat.succ (ihB hrest)
        · intro _
          simp only [splitWsSkip, tokensGo, hc, if_pos]
          exact ihB hrest
      · have htrail' : noTrailWs rest = true := by
          cases hr : rest with
          | nil => rfl
          | cons d t => rw [hr] at htrail; rwa [noTrailWs_cons c (d :: t) (by simp)] at htrail
        obtain ⟨ihA, ihB⟩ := ih rest hlen' htrail'
        constructor
        · intro acc acc2
          simp only [splitWsGo, tokensIn, hc, if_neg, Bool.false_eq_true, ite_false]
          exact ihA (c :: acc) (c :: acc2)
        · intro _
          simp only [splitWsSkip, tokensGo, hc, if_neg, Bool.false_eq_true, ite_false]
          exact ihA [c] [c]

/-- For a non-empty string with no whitespace at either end, JS
`split(/\s+/)` yields exactly one piece per whitespace-separated token. -/
theorem splitWsGo_length_eq_tokensGo (cs : List Char) (hne : cs ≠ [])
    (hlead : noLeadWs cs = true) (htrail : noTrailWs cs = true) :
    (splitWsGo cs []).length = (tokensGo cs).length := by
  cases cs with
  | nil => exact absurd rfl hne
  | cons c rest =>
    have hc : isWs c = false := by
      simp only [noLeadWs, Bool.not_eq_true'] at hlead; exact hlead
    have htrail' : noTrailWs rest = true := by
      cases hr : rest with
      | nil => rfl
      | cons d t => rw [hr] at htrail; rwa [noTrailWs_cons c (d :: t) (by simp)] at htrail
    simp only [splitWsGo, tokensGo, hc, Bool.false_eq_true, ite_false]
    exact ((splitWs_tokens_length rest.length rest le_rfl htrail').1) [c] [c]

/-! ### Scanner characterization lemmas (for the fallback-extractor claim) -/

theorem findCloseAux_get (l : List Char) : ∀ i k, findCloseAux l i = some k →
    l[(k - i)]? = some ']' := by
  induction l with
  | nil => intro i k h; simp [findCloseAux] at h
  | cons c rest ih =>
    intro i k h
    by_cases hc : c = ']'
    · simp only [findCloseAux, hc, if_true] at h
      injection h with h
      subst h
      simp [hc]
    · by_cases hdot : isDotChar c = true
      · simp only [findCloseAux, hc, if_false, hdot, if_true] at h
        have hge := findCloseAux_ge rest (i + 1) k h
        have hrec := ih (i + 1) k h
        have he : k - i = (k - (i + 1)) + 1 := by omega
        rw [he, List.getElem?_cons_succ]
        exact hrec
      · simp only [findCloseAux, hc, if_false, hdot] at h
        exact absurd h (by simp)

theorem findClose_get (l : List Char) (k : Nat) (h : findClose l = some k) :
    l[k]? = some ']' ∧ k < l.length ∧ 1 ≤ k := by
  cases l with
  | nil => simp [findClose] at h
  | cons c rest =>
    simp only [findClose] at h
    split at h
    · have hge := findCloseAux_ge rest 1 k h
      have hget := findCloseAux_get rest 1 k h
      have he : k = (k - 1) + 1 := by omega
      have hgoal : (c :: rest)[k]? = some ']' := by
        rw [he, List.getElem?_cons_succ]
        exact hget
      refine ⟨hgoal, ?_, hge⟩
      have := List.getElem?_eq_some.mp hgoal
      exact this.1
    · exact absurd h (by simp)

theorem findClose_take_succ (l : List Char) (k : Nat) (h : findClose l = some k) :
    l.take (k + 1) = l.take k ++ [']'] := by
  obtain ⟨hget, _, _⟩ := findClose_get l k h
  rw [List.take_succ, hget]
  rfl

/-- Full characterization of a single-capture pattern match: its length is
positive and the matched span is literally `pre ++ capture ++ "]"`. -/
theorem tryPat1_inv (pre l : List Char) (len : Nat) (cap : List Char)
    (h : tryPat1 pre l = some (len, cap)) :
    1 ≤ len ∧ l.take len = pre ++ cap ++ [']'] := by
  unfold tryPat1 at h
  split at h
  · rename_i htake
    cases hfc : findClose (l.drop pre.length) with
    | none => rw [hfc] at h; exact absurd h (by simp)
    | some k =>
      rw [hfc] at h
      injection h with h
      obtain ⟨h1, h2⟩ := Prod.mk.injEq .. ▸ h
      subst h1
      subst h2
      refine ⟨by omega, ?_⟩
      have he : pre.length + k + 1 = pre.length + (k + 1) := by omega
      rw [he, List.take_add, htake, findClose_take_succ _ _ hfc]
      simp [List.append_assoc]
  · exact absurd h (by simp)

/-- `goMod` finds the lazily minimal split: the first capture is non-empty,
followed by the literal arrow, followed by a `findClose` tail. -/
theorem goMod_spec : ∀ (t : List Char) (k m : Nat), goMod t = some (k, m) →
    1 ≤ k ∧ (t.drop k).take 4 = (" -> ").data ∧ findClose (t.drop (k + 4)) = some m := by
  intro t
  induction t with
  | nil => intro k m h; simp [goMod] at h
  | cons c rest ih =>
    intro k m h
    by_cases hdot : isDotChar c = true
    · simp only [goMod, hdot, if_true] at h
      cases harr : (if rest.take 4 = (" -> ").data then findClose (rest.drop 4) else none) with
      | some m0 =>
        rw [harr] at h
        injection h with h
        have h1 : k = 1 := (Prod.mk.injEq .. ▸ h).1.symm
        have h2 : m = m0 := (Prod.mk.injEq .. ▸ h).2.symm
        have harr2 : rest.take 4 = (" -> ").data ∧ findClose (rest.drop 4) = some m0 := by
          by_cases hc : rest.take 4 = (" -> ").data
          · rw [if_pos hc] at harr; exact ⟨hc, harr⟩
          · rw [if_neg hc] at harr; exact absurd harr (by simp)
        refine ⟨by omega, ?_, ?_⟩
        · rw [h1]
          simpa using harr2.1
        · rw [h1, h2]
          simpa using harr2.2
      | none =>
        rw [harr] at h
        cases hg : goMod rest with
        | none => rw [hg] at h; exact absurd h (by simp)
        | some p =>
          obtain ⟨kp, mp⟩ := p
          rw [hg] at h
          injection h with h
          have h1 : k = kp + 1 := (Prod.mk.injEq .. ▸ h).1.symm
          have h2 : m = mp := (Prod.mk.injEq .. ▸ h).2.symm
          obtain ⟨hk, htk, hfc⟩ := ih kp mp hg
          refine ⟨by omega, ?_, ?_⟩
          · rw [h1, List.drop_succ_cons]
            exact htk
          · rw [h1, h2]
            have e : kp + 1 + 4 = (kp + 4) + 1 := by omega
            rw [e, List.drop_succ_cons]
            exact hfc
    · simp only [goMod, hdot] at h
      exact absurd h (by simp)

/-- Full characterization of a `[Modified: ... -> ...]` match: positive
length and the matched span is the literal bracket expression. -/
theorem tryPat2_inv (l : List Char) (len : Nat) (cap1 cap2 : List Char)
    (h : tryPat2 l = some (len, cap1, cap2)) :
    1 ≤ len ∧
    l.take len = ("[Modified: ").data ++ cap1 ++ (" -> ").data ++ cap2 ++ [']'] := by
  unfold tryPat2 at h
  split at h
  · rename_i htake
    cases hg : goMod (l.drop (("[Modified: ").data).length) with
    | none => rw [hg] at h; exact absurd h (by simp)
    | some p =>
      obtain ⟨k, m⟩ := p
      rw [hg] at h
      injection h with h
      have h1 : len = ("[Modified: ").data.length + k + 4 + m + 1 :=
        (Prod.mk.injEq .. ▸ h).1.symm
      have h23 := (Prod.mk.injEq .. ▸ h).2
      have h2 : cap1 = (l.drop (("[Modified: ").data).length).take k :=
        (Prod.mk.injEq .. ▸ h23).1.symm
      have h3 : cap2 = ((l.drop (("[Modified: ").data).length).drop (k + 4)).take m :=
        (Prod.mk.injEq .. ▸ h23).2.symm
      subst h1
      subst h2
      subst h3
      obtain ⟨hk, harr, hfc⟩ := goMod_spec _ _ _ hg
      refine ⟨by omega, ?_⟩
      have he : ("[Modified: ").data.length + k + 4 + m + 1
          = ("[Modified: ").data.length + (k + (4 + (m + 1))) := by omega
      rw [he, List.take_add, htake, List.take_add, List.take_add]
      simp only [List.drop_drop, Nat.add_assoc] at harr hfc ⊢
      rw [harr, findClose_take_succ _ _ hfc]
      simp [List.append_assoc]
  · exact absurd h (by simp)

theorem tryPat1_len_pos (pre l : List Char) (len : Nat) (cap : List Char)
    (h : tryPat1 pre l = some (len, cap)) : 1 ≤ len :=
  (tryPat1_inv pre l len cap h).1

theorem tryPat2_len_pos (l : List Char) (len : Nat) (cap1 cap2 : List Char)
    (h : tryPat2 l = some (len, cap1, cap2)) : 1 ≤ len :=
  (tryPat2_inv l len cap1 cap2 h).1

/-- Every match index produced by the scan loop is at or past the scan
position. -/
theorem scanPat1_idx_ge (pre : List Char) : ∀ (fuel i : Nat) (l : List Char)
    (m : Nat × Nat × List Char), m ∈ scanPat1 pre fuel i l → i ≤ m.1 := by
  intro fuel
  induction fuel with
  | zero => intro i l m h; simp [scanPat1] at h
  | succ fuel ih =>
    intro i l m h
    cases l with
    | nil => simp [scanPat1] at h
    | cons c rest =>
      unfold scanPat1 at h
      cases htry : tryPat1 pre (c :: rest) with
      | some r =>
        rw [htry] at h
        rcases List.mem_cons.mp h with h1 | h1
        · subst h1; exact le_rfl
        · have := ih _ _ m h1
          omega
      | none =>
        rw [htry] at h
        have := ih _ _ m h
        omega

/-- Matches are reported in strictly increasing index order (scan order). -/
theorem scanPat1_chain (pre : List Char) : ∀ (fuel i : Nat) (l : List Char),
    List.Chain' (fun a b : Nat × Nat × List Char => a.1 < b.1)
      (scanPat1 pre fuel i l) := by
  intro fuel
  induction fuel with
  | zero => intro i l; simp [scanPat1]
  | succ fuel ih =>
    intro i l
    cases l with
    | nil => simp [scanPat1]
    | cons c rest =>
      unfold scanPat1
      cases htry : tryPat1 pre (c :: rest) with
      | some r =>
        obtain ⟨len, cap⟩ := r
        refine List.chain'_cons'.mpr ⟨?_, ih _ _⟩
        intro y hy
        have hmem := List.mem_of_mem_head? hy
        have hge := scanPat1_idx_ge pre _ _ _ y hmem
        have hlen := tryPat1_len_pos pre (c :: rest) len cap htry
        omega
      | none => exact ih _ _

/-- Every reported match corresponds to a `tryPat1` success on the suffix of
the scanned text at its own index. -/
theorem scanPat1_slice (pre : List Char) : ∀ (fuel i : Nat) (l : List Char)
    (m : Nat × Nat × List Char), m ∈ scanPat1 pre fuel i l →
    ∃ j, m.1 = i + j ∧ tryPat1 pre (l.drop j) = some (m.2.1, m.2.2) := by
  intro fuel
  induction fuel with
  | zero => intro i l m h; simp [scanPat1] at h
  | succ fuel ih =>
    intro i l m h
    cases l with
    | nil => simp [scanPat1] at h
    | cons c rest =>
      unfold scanPat1 at h
      cases htry : tryPat1 pre (c :: rest) with
      | some r =>
        obtain ⟨len, cap⟩ := r
        rw [htry] at h
        rcases List.mem_cons.mp h with h1 | h1
        · subst h1
          exact ⟨0, by simp, by simpa using htry⟩
        · obtain ⟨j, hj, htry2⟩ := ih _ _ m h1
          have hlen := tryPat1_len_pos pre (c :: rest) len cap htry
          refine ⟨len + j, by omega, ?_⟩
          rw [List.drop_drop] at htry2
          have he : len + j = (len - 1 + j) + 1 := by omega
          rw [he, List.drop_succ_cons]
          exact htry2
      | none =>
        rw [htry] at h
        obtain ⟨j, hj, htry2⟩ := ih _ _ m h
        exact ⟨j + 1, by omega, by rwa [List.drop_succ_cons]⟩

theorem scanPat2_idx_ge : ∀ (fuel i : Nat) (l : List Char)
    (m : Nat × Nat × List Char × List Char), m ∈ scanPat2 fuel i l → i ≤ m.1 := by
  intro fuel
  induction fuel with
  | zero => intro i l m h; simp [scanPat2] at h
  | succ fuel ih =>
    intro i l m h
    cases l with
    | nil => simp [scanPat2] at h
    | cons c rest =>
      unfold scanPat2 at h
      cases htry : tryPat2 (c :: rest) with
      | some r =>
        rw [htry] at h
        rcases List.mem_cons.mp h with h1 | h1
        · subst h1; exact le_rfl
        · have := ih _ _ m h1
          omega
      | none =>
        rw [htry] at h
        have := ih _ _ m h
        omega

theorem scanPat2_chain : ∀ (fuel i : Nat) (l : List Char),
    List.Chain' (fun a b : Nat × Nat × List Char × List Char => a.1 < b.1)
      (scanPat2 fuel i l) := by
  intro fuel
  induction fuel with
  | zero => intro i l; simp [scanPat2]
  | succ fuel ih =>
    intro i l
    cases l with
    | nil => simp [scanPat2]
    | cons c rest =>
      unfold scanPat2
      cases htry : tryPat2 (c :: rest) with
      | some r =>
        obtain ⟨len, cap1, cap2⟩ := r
        refine List.chain'_cons'.mpr ⟨?_, ih _ _⟩
        intro y hy
        have hmem := List.mem_of_mem_head? hy
        have hge := scanPat2_idx_ge _ _ _ y hmem
        have hlen := tryPat2_len_pos (c :: rest) len cap1 cap2 htry
        omega
      | none => exact ih _ _

theorem scanPat2_slice : ∀ (fuel i : Nat) (l : List Char)
    (m : Nat × Nat × List Char × List Char), m ∈ scanPat2 fuel i l →
    ∃ j, m.1 = i + j ∧ tryPat2 (l.drop j) = some (m.2.1, m.2.2.1, m.2.2.2) := by
  intro fuel
  induction fuel with
  | zero => intro i l m h; simp [scanPat2] at h
  | succ fuel ih =>
    intro i l m h
    cases l with
    | nil => simp [scanPat2] at h
    | cons c rest =>
      unfold scanPat2 at h
      cases htry : tryPat2 (c :: rest) with
      | some r =>
        obtain ⟨len, cap1, cap2⟩ := r
        rw [htry] at h
        rcases List.mem_cons.mp h with h1 | h1
        · subst h1
          exact ⟨0, by simp, by simpa using htry⟩
        · obtain ⟨j, hj, htry2⟩ := ih _ _ m h1
          have hlen := tryPat2_len_pos (c :: rest) len cap1 cap2 htry
          refine ⟨len + j, by omega, ?_⟩
          rw [List.drop_drop] at htry2
          have he : len + j = (len - 1 + j) + 1 := by omega
          rw [he, List.drop_succ_cons]
          exact htry2
      | none =>
        rw [htry] at h
        obtain ⟨j, hj, htry2⟩ := ih _ _ m h
        exact ⟨j + 1, by omega, by rwa [List.drop_succ_cons]⟩

/-! ## Claims -/

/-- C1 (counterexample): a document whose structured extraction completes
without error but yields zero changes does not trigger the fallback
extractor, even though the fallback would find a change in the plain text —
refuting "the orchestrator still runs the fallback extractor on the plain
text before returning" for the zero-changes case. -/
theorem fallback_skipped_on_empty_structured_result :
    extractTrackChanges exFileEmptyStructured = [] ∧
    (parseAlternativeTrackChanges exFileEmptyStructured.now
        (getTextContent exFileEmptyStructured)).length = 1 :=
  ⟨rfl, rfl⟩

/-- C1 (amended): the fallback extractor is consulted exactly when the
structured path raises an error (archive failure, missing `document.xml`, or
an XML parse rejection of either entry); when the structured path completes
without error its changes — possibly none — are returned as-is, without
invoking the fallback. -/
theorem extractTrackChanges_branch_policy (f : FileModel) :
    extractTrackChanges f =
      if structuredRaises f = true then catchBlockResult f else structuredChanges f := by
  unfold extractTrackChanges structuredRaises structuredChanges
  rcases hs : f.structured with _ | _ | _ | ⟨doc, comments⟩ <;> simp only [hs]
  · rfl
  · rfl
  · rfl
  · cases comments <;> rfl

/-- C3: `parseDocument` rejects exactly when the initial mammoth plain-text
conversion rejects; every archive/XML/extraction failure (any value of
`f.structured`, any `conv2`) is absorbed and the call still resolves with a
result object. -/
theorem parseDocument_ok_iff_conversion_ok (f : FileModel) :
    (parseDocument f).isOk = f.conv1.isSome := by
  cases h : f.conv1 <;> simp [parseDocument, h, Except.isOk, Except.toBool]

/-- C4: every change returned by the engine satisfies the shape invariant:
`deleted` changes have empty text and a non-empty original text, `added`
changes have non-empty text and no original text — on the structured, the
comment, and the fallback path. -/
theorem change_shape_invariant (f : FileModel) (ch : RedlineChange)
    (h : ch ∈ extractTrackChanges f) :
    (ch.type = .deleted → ch.text = "" ∧ ∃ s, ch.originalText = some s ∧ s ≠ "") ∧
    (ch.type = .added → ch.text ≠ "" ∧ ch.originalText = none) := by
  rcases extractTrackChanges_mem_cases f ch h with ⟨doc, h1⟩ | ⟨c, h1⟩ | h1
  · obtain ⟨hsh, _, _, _⟩ := extractChangesFromXML_mem_inv _ _ _ h1
    rcases hsh with ⟨ht, hne, ho⟩ | ⟨ht, htx, s, ho, hs⟩
    · exact ⟨fun hd => absurd (ht.symm.trans hd) (by decide), fun _ => ⟨hne, ho⟩⟩
    · exact ⟨fun _ => ⟨htx, s, ho, hs⟩, fun ha => absurd (ht.symm.trans ha) (by decide)⟩
  · obtain ⟨ht, _, _⟩ := extractCommentsFromXML_mem_inv _ _ _ h1
    exact ⟨fun hd => absurd (ht.symm.trans hd) (by decide),
           fun ha => absurd (ht.symm.trans ha) (by decide)⟩
  · obtain ⟨hadd, hdel, _, _, _, _⟩ := parseAlternativeTrackChanges_mem_inv _ _ _ h1
    exact ⟨hdel, hadd⟩

theorem change_shape_invariant_witness :
    exChangeIns ∈ extractTrackChanges exFileStructured ∧
    ((exChangeIns.type = .deleted →
        exChangeIns.text = "" ∧ ∃ s, exChangeIns.originalText = some s ∧ s ≠ "") ∧
     (exChangeIns.type = .added →
        exChangeIns.text ≠ "" ∧ exChangeIns.originalText = none)) :=
  ⟨by decide, change_shape_invariant exFileStructured exChangeIns (by decide)⟩

/-- C5 (counterexample): the fallback extractor populates the `comment` field
of every change it emits (here with the fixed description string), refuting
"no change emitted by the extraction engine carries a populated comment
field". -/
theorem engine_sets_comment_on_fallback_changes :
    (extractTrackChanges exFileFallback).map (fun c => c.comment) =
      [some "Added content detected"] := rfl

/-- C5 (amended): no change emitted by the engine ever carries a populated
`suggestions` or `resolved` field, and structured ins/del changes carry no
`comment` either; but every fallback-path change carries the fixed
description comment of its pattern group, and every comment-extractor change
carries the comment text in its `comment` field. -/
theorem engine_comment_suggestions_resolved_policy :
    (∀ (f : FileModel), ∀ ch ∈ extractTrackChanges f,
        ch.suggestions = none ∧ ch.resolved = none) ∧
    (∀ (now : Int) (doc : JsVal), ∀ ch ∈ extractChangesFromXML now doc,
        ch.comment = none) ∧
    (∀ (now : Int) (content : String), ∀ ch ∈ parseAlternativeTrackChanges now content,
        (ch.type = .added ∧ ch.comment = some "Added content detected") ∨
        (ch.type = .deleted ∧ ch.comment = some "Deleted content detected") ∨
        (ch.type = .modified ∧ ch.comment = some "Modified content detected")) ∧
    (∀ (now : Int) (c : JsVal), ∀ ch ∈ extractCommentsFromXML now c,
        ch.comment = some ch.text) := by
  refine ⟨?_, ?_, ?_, ?_⟩
  · intro f ch h
    rcases extractTrackChanges_mem_cases f ch h with ⟨doc, h1⟩ | ⟨c, h1⟩ | h1
    · obtain ⟨_, _, hs, hr⟩ := extractChangesFromXML_mem_inv _ _ _ h1
      exact ⟨hs, hr⟩
    · obtain ⟨_, hs, hr⟩ := extractCommentsFromXML_mem_inv _ _ _ h1
      exact ⟨hs, hr⟩
    · obtain ⟨_, _, _, _, hs, hr⟩ := parseAlternativeTrackChanges_mem_inv _ _ _ h1
      exact ⟨hs, hr⟩
  · intro now doc ch h
    exact (extractChangesFromXML_mem_inv _ _ _ h).2.1
  · intro now content ch h
    exact parseAlternativeTrackChanges_mem_comment now content ch h
  · intro now c ch h
    exact extractCommentsFromXML_mem_comment now c ch h

theorem engine_comment_suggestions_resolved_policy_witness :
    (exChangeIns.suggestions = none ∧ exChangeIns.resolved = none) ∧
    exChangeIns.comment = none ∧
    ((exChangeFee.type = .added ∧ exChangeFee.comment = some "Added content detected") ∨
     (exChangeFee.type = .deleted ∧ exChangeFee.comment = some "Deleted content detected") ∨
     (exChangeFee.type = .modified ∧
        exChangeFee.comment = some "Modified content detected")) ∧
    exChangeComment.comment = some exChangeComment.text :=
  ⟨engine_comment_suggestions_resolved_policy.1 exFileStructured exChangeIns (by decide),
   engine_comment_suggestions_resolved_policy.2.1 9 exDocIns exChangeIns (by decide),
   engine_comment_suggestions_resolved_policy.2.2.1 0 feeContent exChangeFee (by decide),
   engine_comment_suggestions_resolved_policy.2.2.2 0 exDocComments exChangeComment
     (by decide)⟩

/-- C6 (counterexample): a `w:ins` element whose date attribute is present
but unparseable produces the Invalid Date, not the extraction-time current
time — refuting "equals the extraction-time current time ... when it is
present but unparseable". -/
theorem unparseable_date_gives_invalid_not_now :
    (extractChangesFromXML 0 exDocBadDate).map (fun c => c.timestamp) = [JsDate.invalid] ∧
    JsDate.invalid ≠ JsDate.valid 0 :=
  ⟨rfl, by decide⟩

/-- C6 (amended): the emitted timestamp equals the parsed date attribute when
it is present, non-empty and parseable; equals the extraction-time current
time when the attribute is absent, and also when it is present but empty
(the code's truthiness check); and is the Invalid Date — not the current
time — when the attribute is present, non-empty and unparseable. -/
theorem ins_del_timestamp_policy (now : Int) (e : JsVal) (ch : RedlineChange)
    (h : insCallback now e = some ch ∨ delCallback now e = some ch) :
    (jsGetAttr e "w:date" = none → ch.timestamp = .valid now) ∧
    (jsGetAttr e "w:date" = some "" → ch.timestamp = .valid now) ∧
    (∀ s, jsGetAttr e "w:date" = some s → s ≠ "" → ch.timestamp = jsNewDate s) ∧
    (∀ s, jsGetAttr e "w:date" = some s → s ≠ "" → jsParseDate s = none →
        ch.timestamp = .invalid) := by
  have hts := callback_timestamp_eq now e ch h
  refine ⟨?_, ?_, ?_, ?_⟩
  · intro ha
    rw [hts]
    simp [firstTruthyOpt, ha]
  · intro ha
    rw [hts]
    simp [firstTruthyOpt, ha]
  · intro s ha hne
    rw [hts]
    simp [firstTruthyOpt, ha, hne]
  · intro s ha hne hp
    rw [hts]
    simp [firstTruthyOpt, ha, hne, jsNewDate, hp]

theorem ins_del_timestamp_policy_witness :
    insCallback 0 exInsGoodDate = some exChangeGoodDate ∧
    exChangeGoodDate.timestamp = jsNewDate "2024-01-02T03:04:05Z" :=
  ⟨rfl, (ins_del_timestamp_policy 0 exInsGoodDate exChangeGoodDate
    (Or.inl rfl)).2.2.1 "2024-01-02T03:04:05Z" rfl (by decide)⟩

/-- C7: `metadata.authors` is exactly the first-appearance-order
de-duplicated projection of `author` over the returned change list, for
every upload outcome (structured, fallback, or mixed). -/
theorem authors_are_first_seen_dedup_of_changes (f : FileModel) (r : DocxParseResult)
    (h : parseDocument f = .ok r) :
    r.metadata.authors = specFirstSeenDedup (r.changes.map (fun c => c.author)) := by
  obtain ⟨html, _, _, _, ha, _, _⟩ := parseDocument_ok_inv f r h
  rw [ha, jsSetDedup_eq_specFirstSeenDedup]

theorem authors_are_first_seen_dedup_of_changes_witness :
    parseDocument exFileStructured = .ok exResultStructured ∧
    exResultStructured.metadata.authors =
      specFirstSeenDedup (exResultStructured.changes.map (fun c => c.author)) :=
  ⟨rfl, authors_are_first_seen_dedup_of_changes exFileStructured exResultStructured rfl⟩

/-- C8 (counterexample): for a document whose conversion yields empty
content the code reports `wordCount` 1 — JS `"".split(/\s+/)` is `[""]` —
while the whitespace-token count of the empty string is 0, refuting the
claim's "including the case where content is the empty string". -/
theorem empty_content_wordCount_is_one :
    (parseDocument exFileEmptyContent).toOption.map
        (fun r => (r.content, r.metadata.wordCount)) = some ("", 1) ∧
    (wsTokens "").length = 0 :=
  ⟨rfl, rfl⟩

/-- C8 (amended): `metadata.changeCount` always equals the length of the
returned change list, and `metadata.wordCount` equals the number of
whitespace-separated tokens of the content string whenever the content is
non-empty; for empty content the reported word count is 1, not 0. -/
theorem metadata_counts (f : FileModel) (r : DocxParseResult)
    (h : parseDocument f = .ok r) :
    r.metadata.changeCount = r.changes.length ∧
    r.metadata.wordCount =
      (if r.content = "" then 1 else (wsTokens r.content).length) := by
  obtain ⟨html, _, hcont, _, _, hcc, hwc⟩ := parseDocument_ok_inv f r h
  refine ⟨hcc, ?_⟩
  by_cases hce : r.content = ""
  · rw [if_pos hce, hwc, hce]
    rfl
  · rw [if_neg hce, hwc]
    have hdata : r.content.data = jsTrim (collapseWs (stripTags html.data)) := by
      rw [hcont]; rfl
    have hne : r.content.data ≠ [] := by
      intro hd
      exact hce (String.ext_iff.mpr (by rw [hd]))
    have hlead : noLeadWs r.content.data = true := by
      rw [hdata]; exact jsTrim_noLeadWs _
    have htrail : noTrailWs r.content.data = true := by
      rw [hdata]; exact jsTrim_noTrailWs _
    unfold jsSplitWs wsTokens
    rw [List.length_map, List.length_map]
    exact splitWsGo_length_eq_tokensGo _ hne hlead htrail

theorem metadata_counts_witness :
    parseDocument exFileStructured = .ok exResultStructured ∧
    (exResultStructured.metadata.changeCount = exResultStructured.changes.length ∧
     exResultStructured.metadata.wordCount =
       (if exResultStructured.content = "" then 1
        else (wsTokens exResultStructured.content).length)) :=
  ⟨rfl, metadata_counts exFileStructured exResultStructured rfl⟩

/-- C9: the fallback extractor reports all `[Added: ...]` matches first,
then all `[Deleted: ...]`, then all `[Modified: ... -> ...]` (each group in
scan order — strictly increasing match indices — not interleaved by document
position); every change carries the author `"Document Author"` and a
location equal to the literal match span `[matchIndex, matchIndex +
fullMatchLength)`, whose text is the full bracket expression including the
brackets. -/
theorem fallback_group_order_and_spans (now : Int) (content : String) :
    (parseAlternativeTrackChanges now content).map (fun c => c.type)
      = List.replicate (addedMatches content).length ChangeType.added
        ++ List.replicate (deletedMatches content).length ChangeType.deleted
        ++ List.replicate (modifiedMatches content).length ChangeType.modified ∧
    (∀ ch ∈ parseAlternativeTrackChanges now content, ch.author = "Document Author") ∧
    (parseAlternativeTrackChanges now content).map (fun c => c.location)
      = (addedMatches content).map (fun m => Location.mk m.1 (m.1 + m.2.1))
        ++ (deletedMatches content).map (fun m => Location.mk m.1 (m.1 + m.2.1))
        ++ (modifiedMatches content).map (fun m => Location.mk m.1 (m.1 + m.2.1)) ∧
    List.Chain' (fun a b => a.1 < b.1) (addedMatches content) ∧
    List.Chain' (fun a b => a.1 < b.1) (deletedMatches content) ∧
    List.Chain' (fun a b => a.1 < b.1) (modifiedMatches content) ∧
    (∀ m ∈ addedMatches content,
        (content.data.drop m.1).take m.2.1 = ("[Added: ").data ++ m.2.2 ++ [']']) ∧
    (∀ m ∈ deletedMatches content,
        (content.data.drop m.1).take m.2.1 = ("[Deleted: ").data ++ m.2.2 ++ [']']) ∧
    (∀ m ∈ modifiedMatches content,
        (content.data.drop m.1).take m.2.1
          = ("[Modified: ").data ++ m.2.2.1 ++ (" -> ").data ++ m.2.2.2 ++ [']']) := by
  have hunfold : parseAlternativeTrackChanges now content
      = (addedMatches content).enum.map (fun p => mkAltAdded now p.1 p.2)
        ++ (deletedMatches content).enum.map
            (fun p => mkAltDeleted now ((addedMatches content).length + p.1) p.2)
        ++ (modifiedMatches content).enum.map
            (fun p => mkAltModified now
              ((addedMatches content).length + (deletedMatches content).length + p.1)
              p.2) := rfl
  refine ⟨?_, ?_, ?_, ?_, ?_, ?_, ?_, ?_, ?_⟩
  · rw [hunfold, List.map_append, List.map_append, List.map_map, List.map_map,
        List.map_map]
    have e1 : (addedMatches content).enum.map
        ((fun c => c.type) ∘ (fun p : Nat × (Nat × Nat × List Char) =>
          mkAltAdded now p.1 p.2))
        = List.replicate (addedMatches content).length ChangeType.added := by
      refine List.eq_replicate.mpr ⟨by simp, ?_⟩
      intro b hb
      obtain ⟨p, _, rfl⟩ := List.mem_map.mp hb
      rfl
    have e2 : (deletedMatches content).enum.map
        ((fun c => c.type) ∘ (fun p : Nat × (Nat × Nat × List Char) =>
          mkAltDeleted now ((addedMatches content).length + p.1) p.2))
        = List.replicate (deletedMatches content).length ChangeType.deleted := by
      refine List.eq_replicate.mpr ⟨by simp, ?_⟩
      intro b hb
      obtain ⟨p, _, rfl⟩ := List.mem_map.mp hb
      rfl
    have e3 : (modifiedMatches content).enum.map
        ((fun c => c.type) ∘ (fun p : Nat × (Nat × Nat × List Char × List Char) =>
          mkAltModified now
            ((addedMatches content).length + (deletedMatches content).length + p.1) p.2))
        = List.replicate (modifiedMatches content).length ChangeType.modified := by
      refine List.eq_replicate.mpr ⟨by simp, ?_⟩
      intro b hb
      obtain ⟨p, _, rfl⟩ := List.mem_map.mp hb
      rfl
    rw [e1, e2, e3]
  · intro ch h
    exact (parseAlternativeTrackChanges_mem_inv now content ch h).2.2.1
  · rw [hunfold, List.map_append, List.map_append, List.map_map, List.map_map,
        List.map_map]
    have e1 : (addedMatches content).enum.map
        ((fun c => c.location) ∘ (fun p : Nat × (Nat × Nat × List Char) =>
          mkAltAdded now p.1 p.2))
        = (addedMatches content).map (fun m => Location.mk m.1 (m.1 + m.2.1)) := by
      conv_rhs => rw [← List.enum_map_snd (addedMatches content), List.map_map]
      rfl
    have e2 : (deletedMatches content).enum.map
        ((fun c => c.location) ∘ (fun p : Nat × (Nat × Nat × List Char) =>
          mkAltDeleted now ((addedMatches content).length + p.1) p.2))
        = (deletedMatches content).map (fun m => Location.mk m.1 (m.1 + m.2.1)) := by
      conv_rhs => rw [← List.enum_map_snd (deletedMatches content), List.map_map]
      rfl
    have e3 : (modifiedMatches content).enum.map
        ((fun c => c.location) ∘ (fun p : Nat × (Nat × Nat × List Char × List Char) =>
          mkAltModified now
            ((addedMatches content).length + (deletedMatches content).length + p.1) p.2))
        = (modifiedMatches content).map (fun m => Location.mk m.1 (m.1 + m.2.1)) := by
      conv_rhs => rw [← List.enum_map_snd (modifiedMatches content), List.map_map]
      rfl
    rw [e1, e2, e3]
  · exact scanPat1_chain _ _ _ _
  · exact scanPat1_chain _ _ _ _
  · exact scanPat2_chain _ _ _
  · intro m hm
    obtain ⟨j, hj, htry⟩ := scanPat1_slice _ _ _ _ m hm
    have hsl := (tryPat1_inv _ _ _ _ htry).2
    have hj0 : j = m.1 := by omega
    rw [hj0] at hsl
    exact hsl
  · intro m hm
    obtain ⟨j, hj, htry⟩ := scanPat1_slice _ _ _ _ m hm
    have hsl := (tryPat1_inv _ _ _ _ htry).2
    have hj0 : j = m.1 := by omega
    rw [hj0] at hsl
    exact hsl
  · intro m hm
    obtain ⟨j, hj, htry⟩ := scanPat2_slice _ _ _ m hm
    have hsl := (tryPat2_inv _ _ _ _ htry).2
    have hj0 : j = m.1 := by omega
    rw [hj0] at hsl
    exact hsl

theorem fallback_group_order_and_spans_witness :
    exChangeFee ∈ parseAlternativeTrackChanges 0 feeContent ∧
    exChangeFee.author = "Document Author" :=
  ⟨by decide, (fallback_group_order_and_spans 0 feeContent).2.1 exChangeFee (by decide)⟩

/-- C10: once the initial conversion succeeds, the rejection branch is
unreachable even when the structured stage throws and the second plain-text
conversion also fails: the inner failure is swallowed, the fallback scans an
empty string, and the call resolves with an empty change list. -/
theorem rejection_unreachable_given_conversion (f : FileModel)
    (h1 : f.conv1.isSome = true) (h2 : structuredRaises f = true)
    (h3 : f.conv2 = none) :
    ∃ r, parseDocument f = .ok r ∧ r.changes = [] := by
  have hcb := catchBlockResult_conv2_none f h3
  have hext : extractTrackChanges f = [] := by
    unfold extractTrackChanges
    rcases hs : f.structured with _ | _ | _ | ⟨doc, comments⟩ <;> simp only [hs]
    · exact hcb
    · exact hcb
    · exact hcb
    · cases comments with
      | absent => simp [structuredRaises, hs] at h2
      | parseFail => exact hcb
      | parsed c => simp [structuredRaises, hs] at h2
  obtain ⟨html, hh⟩ := Option.isSome_iff_exists.mp h1
  refine ⟨{ content := htmlToText html, changes := [],
            metadata := { filename := f.name, uploadedAt := .valid f.now,
                          lastModified := .valid f.lastModified,
                          wordCount := (jsSplitWs (htmlToText html)).length,
                          changeCount := 0, authors := jsSetDedup [] } }, ?_, rfl⟩
  unfold parseDocument
  rw [hh, hext]
  rfl

/-- C2 (counterexample): the xml2js-based structured extractor is not
prefix-insensitive: an unprefixed `ins` element is not recognized (while the
`w:ins` spelling is), an unprefixed `author` attribute is ignored in favour
of the `"Unknown"` default, and an unprefixed (parseable) `date` attribute is
ignored in favour of the extraction-time clock. -/
theorem xml2js_extractor_not_prefix_insensitive :
    extractChangesFromXML 0 exDocUnprefixedIns = [] ∧
    (extractChangesFromXML 0 exDocPrefixedIns).map (fun c => c.text) = ["hello"] ∧
    (extractChangesFromXML 0 exDocUnprefixedAuthor).map (fun c => c.author) = ["Unknown"] ∧
    (extractChangesFromXML 5 exDocUnprefixedDate).map (fun c => c.timestamp)
      = [JsDate.valid 5] :=
  ⟨rfl, rfl, rfl, rfl⟩

/-- C2 (amended): prefix-insensitive matching holds for the DOM-based
alternate extractor: an ins/del element is recognized whether its tag is
`w:ins`/`w:del` or unprefixed `ins`/`del`, the author is read from
`w:author` or from unprefixed `author`, and the timestamp is derived from
the first non-empty of the `w:date` and unprefixed `date` attributes
(defaulting to extraction-time now); the xml2js-based extractor in
`docxParser.ts` instead matches only the exact `w:ins`/`w:del` keys and
reads only the `w:author`/`w:date` attribute names. -/
theorem dom_extractor_prefix_insensitive (now : Int) (attrs : List (String × String))
    (children : List Dom) :
    (∀ tag, (tag = "ins" ∨ tag = "w:ins") →
      jsTrimS (domExtractTextFromElement (Dom.elem tag attrs children)) ≠ "" →
      ∃ ch ∈ domExtractChangesFromXML now (Dom.elem tag attrs children),
        ch.type = .added ∧
        ch.author = firstTruthy [List.lookup "w:author" attrs, List.lookup "author" attrs]
          "Unknown" ∧
        ch.timestamp =
          (match firstTruthyOpt [List.lookup "w:date" attrs, List.lookup "date" attrs] with
           | some s => jsNewDate s
           | none => JsDate.valid now)) ∧
    (∀ tag, (tag = "del" ∨ tag = "w:del") →
      jsTrimS (domExtractTextFromElement (Dom.elem tag attrs children)) ≠ "" →
      ∃ ch ∈ domExtractChangesFromXML now (Dom.elem tag attrs children),
        ch.type = .deleted ∧
        ch.author = firstTruthy [List.lookup "w:author" attrs, List.lookup "author" attrs]
          "Unknown" ∧
        ch.timestamp =
          (match firstTruthyOpt [List.lookup "w:date" attrs, List.lookup "date" attrs] with
           | some s => jsNewDate s
           | none => JsDate.valid now)) := by
  constructor
  · intro tag htag htext
    have hsel : Dom.elem tag attrs children
        ∈ domSelectAll ["ins", "w:ins"] (Dom.elem tag attrs children) := by
      rcases htag with rfl | rfl <;> simp [domSelectAll]
    obtain ⟨ch, hcb, hty, hau, hts⟩ : ∃ ch,
        domInsCallback now (Dom.elem tag attrs children) = some ch ∧
        ch.type = .added ∧
        ch.author = firstTruthy [List.lookup "w:author" attrs, List.lookup "author" attrs]
          "Unknown" ∧
        ch.timestamp =
          (match firstTruthyOpt [List.lookup "w:date" attrs, List.lookup "date" attrs] with
           | some s => jsNewDate s
           | none => JsDate.valid now) := by
      simp only [domInsCallback]
      rw [if_pos htext]
      exact ⟨_, rfl, rfl, rfl, rfl⟩
    refine ⟨ch, ?_, hty, hau, hts⟩
    unfold domExtractChangesFromXML
    exact List.mem_append_left _ (List.mem_append_left _
      (List.mem_filterMap.mpr ⟨_, hsel, hcb⟩))
  · intro tag htag htext
    have hsel : Dom.elem tag attrs children
        ∈ domSelectAll ["del", "w:del"] (Dom.elem tag attrs children) := by
      rcases htag with rfl | rfl <;> simp [domSelectAll]
    obtain ⟨ch, hcb, hty, hau, hts⟩ : ∃ ch,
        domDelCallback now (Dom.elem tag attrs children) = some ch ∧
        ch.type = .deleted ∧
        ch.author = firstTruthy [List.lookup "w:author" attrs, List.lookup "author" attrs]
          "Unknown" ∧
        ch.timestamp =
          (match firstTruthyOpt [List.lookup "w:date" attrs, List.lookup "date" attrs] with
           | some s => jsNewDate s
           | none => JsDate.valid now) := by
      simp only [domDelCallback]
      rw [if_pos htext]
      exact ⟨_, rfl, rfl, rfl, rfl⟩
    refine ⟨ch, ?_, hty, hau, hts⟩
    unfold domExtractChangesFromXML
    exact List.mem_append_left _ (List.mem_append_right _
      (List.mem_filterMap.mpr ⟨_, hsel, hcb⟩))

theorem dom_extractor_prefix_insensitive_witness :
    ∃ ch ∈ domExtractChangesFromXML 0 exDomIns,
      ch.type = .added ∧
      ch.author = firstTruthy
        [List.lookup "w:author" [("author", "Alice"), ("date", "2024-01-02T03:04:05Z")],
         List.lookup "author" [("author", "Alice"), ("date", "2024-01-02T03:04:05Z")]]
        "Unknown" ∧
      ch.timestamp =
        (match firstTruthyOpt
            [List.lookup "w:date" [("author", "Alice"), ("date", "2024-01-02T03:04:05Z")],
             List.lookup "date" [("author", "Alice"), ("date", "2024-01-02T03:04:05Z")]] with
         | some s => jsNewDate s
         | none => JsDate.valid 0) :=
  (dom_extractor_prefix_insensitive 0 [("author", "Alice"), ("date", "2024-01-02T03:04:05Z")]
    [Dom.text "hi"]).1 "ins" (Or.inl rfl) (by decide)

theorem rejection_unreachable_given_conversion_witness :
    exFileBothFail.conv1.isSome = true ∧ structuredRaises exFileBothFail = true ∧
    exFileBothFail.conv2 = none ∧
    ∃ r, parseDocument exFileBothFail = .ok r ∧ r.changes = [] :=
  ⟨rfl, rfl, rfl, rejection_unreachable_given_conversion exFileBothFail rfl rfl rfl⟩

end ScriptSync
